import Mathlib

/-!
Verification of the streaming response interpretation layer of the
strands-demo chat client.

The TypeScript sources are shallowly embedded in Lean.  JavaScript strings
are modelled as lists of characters (abbrev Str); JSON values as the
inductive type Json; JSON.parse as a fuelled recursive-descent decoder;
the callback-driven stream consumer as a pure fold that records the
sequence of callback invocations it would perform.
-/

/-- JavaScript strings are modelled as lists of Unicode characters. -/
abbrev Str := List Char

/-- Conversion from a Lean string literal to the model type. -/
def toStr (s : String) : Str := s.data

/-- The whitespace characters relevant to this code base (space, newline,
tab, carriage return, form feed, vertical tab).  JavaScript's trim and
trailing regexes use the full Unicode class; the sources only ever deal
with these ASCII members. -/
def isWsChar (c : Char) : Bool :=
  c = ' ' || c = '\n' || c = '\t' || c = '\r' || c = '\x0c' || c = '\x0b'

/-- Model of String.prototype.trimStart. -/
def trimL (s : Str) : Str := s.dropWhile isWsChar

/-- Model of String.prototype.trimEnd. -/
def trimR (s : Str) : Str := (s.reverse.dropWhile isWsChar).reverse

/-- Model of String.prototype.trim. -/
def trim (s : Str) : Str := trimL (trimR s)

/-- ASCII lower-casing of one character, as performed by
String.prototype.toLowerCase on the characters this code base compares
(the thinking tags are pure ASCII). -/
def lowerChar (c : Char) : Char :=
  if 65 ≤ c.toNat ∧ c.toNat ≤ 90 then Char.ofNat (c.toNat + 32) else c

/-- Model of String.prototype.toLowerCase. -/
def lowerStr (s : Str) : Str := s.map lowerChar

/-- Split a string at every occurrence of a separator character; models
String.prototype.split with a one-character separator. -/
def splitChar (sep : Char) : Str → List Str
  | [] => [[]]
  | c :: rest =>
    let r := splitChar sep rest
    if c = sep then [] :: r
    else match r with
      | [] => [[c]]
      | hd :: tl => (c :: hd) :: tl

/-- Join a list of strings with a separator string; models
Array.prototype.join. -/
def joinSep (sep : Str) : List Str → Str
  | [] => []
  | [s] => s
  | s :: rest => s ++ sep ++ joinSep sep rest

/-- Leftmost occurrence of a needle substring: returns the part before the
occurrence and the part after it.  Models String.prototype.indexOf plus
the accompanying slices. -/
def findSub (needle : Str) : Str → Option (Str × Str)
  | [] => if needle.isPrefixOf [] then some ([], []) else none
  | c :: rest =>
    if needle.isPrefixOf (c :: rest) then some ([], (c :: rest).drop needle.length)
    else (findSub needle rest).map (fun p => (c :: p.1, p.2))

/-- Whether a needle occurs as a substring. -/
def hasSub (needle hay : Str) : Bool := (findSub needle hay).isSome

/-- Case-insensitive test that a pattern (given in lower case) occurs at
the start of a string. -/
def ciAtStart (pat s : Str) : Bool := lowerStr (s.take pat.length) = pat

/-- Leftmost case-insensitive occurrence of a lower-case pattern: returns
the (original-case) part before the occurrence and the part after it.
Models lower.indexOf(tag) together with the slices the caller takes on
the original string. -/
def findCI (pat : Str) : Str → Option (Str × Str)
  | [] => if ciAtStart pat [] then some ([], []) else none
  | c :: rest =>
    if ciAtStart pat (c :: rest) then some ([], (c :: rest).drop pat.length)
    else (findCI pat rest).map (fun p => (c :: p.1, p.2))

/-- Case-insensitive substring test against a lower-case pattern; models
the /i regular-expression tests in the sources. -/
def hasSubCI (pat hay : Str) : Bool := (findCI pat hay).isSome

/-- Decimal digits of a natural number, as a model string. -/
def natToStr (n : Nat) : Str := (Nat.repr n).data

/-- Value of a run of decimal digits; models parseInt(s, 10) and Number(s)
on a non-empty all-digit string (both return the same mathematical value
there; IEEE rounding of astronomically long runs is out of scope). -/
def digitsToNat (ds : Str) : Nat :=
  ds.foldl (fun acc c => acc * 10 + (c.toNat - 48)) 0

/-- JSON values, as produced by JSON.parse.  Numbers keep their source
lexeme: none of the embedded code inspects numeric values, and
JSON.stringify of this code base's payloads round-trips the lexeme. -/
inductive Json where
  | null
  | bool (b : Bool)
  | num (lexeme : Str)
  | str (s : Str)
  | arr (elems : List Json)
  | obj (fields : List (Str × Json))

/-- First binding of a key in an object's field list.  The JSON decoder
below never produces duplicate keys (later bindings overwrite earlier
ones, as in JavaScript), so first and last occurrence agree. -/
def jlookup : List (Str × Json) → Str → Option Json
  | [], _ => none
  | (k, v) :: rest, key => if k = key then some v else jlookup rest key

/-- Property read value.get(key): undefined (none) on non-objects, like
JavaScript property access on arrays and primitives for these keys. -/
def Json.get : Json → Str → Option Json
  | .obj fs, key => jlookup fs key
  | _, _ => none

/-- The JavaScript test (key in value) for the objects this code probes. -/
def Json.hasKey (j : Json) (key : Str) : Bool := (j.get key).isSome

/-- typeof value === 'object' && value: arrays and objects, not null. -/
def Json.isObjLike : Json → Bool
  | .arr _ => true
  | .obj _ => true
  | _ => false

/-- Whether a numeric lexeme denotes zero (mantissa digits all zero). -/
def numLexIsZero (lex : Str) : Bool :=
  ((lex.takeWhile (fun c => c ≠ 'e' ∧ c ≠ 'E')).filter Char.isDigit).all (· = '0')

/-- JavaScript truthiness of a value. -/
def Json.truthy : Json → Bool
  | .null => false
  | .bool b => b
  | .num lex => !numLexIsZero lex
  | .str s => s ≠ []
  | .arr _ => true
  | .obj _ => true

/-- Insert or overwrite a key in a field list: existing keys keep their
position (JavaScript property update / object spread semantics), new keys
are appended. -/
def objSet : List (Str × Json) → Str → Json → List (Str × Json)
  | [], key, v => [(key, v)]
  | (k1, v1) :: rest, key, v =>
    if k1 = key then (key, v) :: rest else (k1, v1) :: objSet rest key v

/-- Object spread with one overriding key, as in the source's
normalizeStructuredResponse({...message, answer: answerValue}).  The
sources only spread objects here (the branch guarding the call requires
an answer property, which arrays and primitives never have). -/
def spreadSet (m : Json) (key : Str) (v : Json) : Json :=
  match m with
  | .obj fs => .obj (objSet fs key v)
  | other => other

/-- JSON token whitespace. -/
def isJsonWs (c : Char) : Bool := c = ' ' || c = '\t' || c = '\n' || c = '\r'

/-- Skip leading JSON whitespace. -/
def skipWs (s : Str) : Str := s.dropWhile isJsonWs

/-- Value of a hexadecimal digit. -/
def hexVal (c : Char) : Option Nat :=
  if '0' ≤ c ∧ c ≤ '9' then some (c.toNat - 48)
  else if 'a' ≤ c ∧ c ≤ 'f' then some (c.toNat - 87)
  else if 'A' ≤ c ∧ c ≤ 'F' then some (c.toNat - 55)
  else none

/-- Single-character JSON string escapes. -/
def escChar (c : Char) : Option Char :=
  if c = '"' then some '"'
  else if c = '\\' then some '\\'
  else if c = '/' then some '/'
  else if c = 'b' then some '\x08'
  else if c = 'f' then some '\x0c'
  else if c = 'n' then some '\n'
  else if c = 'r' then some '\r'
  else if c = 't' then some '\t'
  else none

/-- Body of a JSON string after the opening quote: returns the decoded
characters and the input after the closing quote.  Raw control characters
are rejected, as in JSON.parse. -/
def parseStrBody : Str → Option (Str × Str)
  | [] => none
  | '"' :: rest => some ([], rest)
  | '\\' :: 'u' :: h1 :: h2 :: h3 :: h4 :: rest =>
    (hexVal h1).bind fun a =>
    (hexVal h2).bind fun b =>
    (hexVal h3).bind fun c =>
    (hexVal h4).bind fun d =>
    (parseStrBody rest).map fun p =>
      (Char.ofNat (((a * 16 + b) * 16 + c) * 16 + d) :: p.1, p.2)
  | '\\' :: e :: rest =>
    (escChar e).bind fun c => (parseStrBody rest).map fun p => (c :: p.1, p.2)
  | c :: rest =>
    if c.toNat < 32 then none
    else (parseStrBody rest).map fun p => (c :: p.1, p.2)

/-- Fractional part of a JSON number, if present; a dot not followed by a
digit is a decode error. -/
def parseFracPart (s2 : Str) : Option (Str × Str) :=
  match s2 with
  | '.' :: r =>
    match r.span Char.isDigit with
    | ([], _) => none
    | (run, rest) => some ('.' :: run, rest)
  | _ => some ([], s2)

/-- Exponent part of a JSON number, if present; an exponent marker not
followed by a digit is a decode error. -/
def parseExpPart (s3 : Str) : Option (Str × Str) :=
  match s3 with
  | e :: r =>
    if e = 'e' ∨ e = 'E' then
      let (sgn, r1) : Str × Str := match r with
        | '+' :: r2 => (['+'], r2)
        | '-' :: r2 => (['-'], r2)
        | _ => (([] : Str), r)
      match r1.span Char.isDigit with
      | ([], _) => none
      | (run, rest) => some (e :: sgn ++ run, rest)
    else some ([], s3)
  | [] => some ([], s3)

/-- Lexeme of a JSON number at the head of the input:
-?(0|[1-9][0-9]*)(.[0-9]+)?([eE][+-]?[0-9]+)?. -/
def parseNumLex (s : Str) : Option (Str × Str) :=
  let (sign, s1) := match s with
    | '-' :: r => (['-'], r)
    | _ => (([] : Str), s)
  let intPart : Option (Str × Str) := match s1 with
    | '0' :: r => some (['0'], r)
    | c :: r =>
      if c.isDigit then
        let (run, rest) := r.span Char.isDigit
        some (c :: run, rest)
      else none
    | [] => none
  intPart.bind fun (ip, s2) =>
  (parseFracPart s2).bind fun (fracPart, s3) =>
  (parseExpPart s3).map fun (expPart, s4) =>
  (sign ++ ip ++ fracPart ++ expPart, s4)

/-- One parsing step for the elements of a JSON array, parameterised by
the value decoder; returns the elements and the input after the closing
bracket. -/
def parseItemsF (pv : Str → Option (Json × Str)) : Nat → Str → Option (List Json × Str)
  | 0, _ => none
  | f + 1, s =>
    (pv s).bind fun (v, rest) =>
    match skipWs rest with
    | ',' :: more => (parseItemsF pv f more).map fun p => (v :: p.1, p.2)
    | ']' :: after => some ([v], after)
    | _ => none

/-- One parsing step for the fields of a JSON object, parameterised by the
value decoder; returns the key/value pairs in source order and the input
after the closing brace. -/
def parseFieldsF (pv : Str → Option (Json × Str)) : Nat → Str → Option (List (Str × Json) × Str)
  | 0, _ => none
  | f + 1, s =>
    match skipWs s with
    | '"' :: rest =>
      (parseStrBody rest).bind fun (k, r1) =>
      match skipWs r1 with
      | ':' :: r2 =>
        (pv r2).bind fun (v, r3) =>
        match skipWs r3 with
        | ',' :: more => (parseFieldsF pv f more).map fun p => ((k, v) :: p.1, p.2)
        | '\x7d' :: after => some ([(k, v)], after)
        | _ => none
      | _ => none
    | _ => none

/-- Fuelled JSON value decoder; fuel larger than the input length always
suffices since every recursive call first consumes input. -/
def parseJsonF : Nat → Str → Option (Json × Str)
  | 0, _ => none
  | fuel + 1, s0 =>
    let s := skipWs s0
    if (toStr "null").isPrefixOf s then some (.null, s.drop 4)
    else if (toStr "true").isPrefixOf s then some (.bool true, s.drop 4)
    else if (toStr "false").isPrefixOf s then some (.bool false, s.drop 5)
    else
      match s with
      | '"' :: rest => (parseStrBody rest).map fun p => (.str p.1, p.2)
      | '[' :: rest =>
        match skipWs rest with
        | ']' :: after => some (.arr [], after)
        | r => (parseItemsF (parseJsonF fuel) fuel r).map fun p => (.arr p.1, p.2)
      | '\x7b' :: rest =>
        match skipWs rest with
        | '\x7d' :: after => some (.obj [], after)
        | r =>
          (parseFieldsF (parseJsonF fuel) fuel r).map fun p =>
            (.obj (p.1.foldl (fun acc kv => objSet acc kv.1 kv.2) []), p.2)
      | _ => parseNumLex s |>.map fun p => (.num p.1, p.2)

/-- Model of JSON.parse: decode one value and require only whitespace to
remain.  Returns none where JSON.parse throws.  Duplicate object keys are
resolved as in JavaScript: the later binding wins, keeping the first
binding's position. -/
def jsonParse (s : Str) : Option Json :=
  match parseJsonF (s.length + 2) s with
  | some (v, rest) => if skipWs rest = [] then some v else none
  | none => none

/-- JSON string escaping as performed by JSON.stringify. -/
def escapeStr : Str → Str
  | [] => []
  | c :: rest =>
    (if c = '"' then toStr "\\\""
     else if c = '\\' then toStr "\\\\"
     else if c = '\n' then toStr "\\n"
     else if c = '\r' then toStr "\\r"
     else if c = '\t' then toStr "\\t"
     else if c = '\x08' then toStr "\\b"
     else if c = '\x0c' then toStr "\\f"
     else if c.toNat < 32 then
       toStr "\\u00" ++
         [(toStr "0123456789abcdef").getD (c.toNat / 16) '0',
          (toStr "0123456789abcdef").getD (c.toNat % 16) '0']
     else [c]) ++ escapeStr rest

mutual

/-- Model of JSON.stringify with no spacing argument. -/
def jsonStringify : Json → Str
  | .null => toStr "null"
  | .bool true => toStr "true"
  | .bool false => toStr "false"
  | .num lex => lex
  | .str s => '"' :: escapeStr s ++ ['"']
  | .arr l => '[' :: stringifyElems l ++ [']']
  | .obj fs => '\x7b' :: stringifyFields fs ++ ['\x7d']

/-- Comma-joined serialisations of array elements. -/
def stringifyElems : List Json → Str
  | [] => []
  | [v] => jsonStringify v
  | v :: rest => jsonStringify v ++ ',' :: stringifyElems rest

/-- Comma-joined serialisations of object fields. -/
def stringifyFields : List (Str × Json) → Str
  | [] => []
  | [(k, v)] => '"' :: escapeStr k ++ '"' :: ':' :: jsonStringify v
  | (k, v) :: rest =>
    '"' :: escapeStr k ++ '"' :: ':' :: jsonStringify v ++ ',' :: stringifyFields rest

end

/-- JavaScript String(value) coercion, used only to model the message an
Error carries; num lexemes stand in for the canonical number rendering. -/
def jsToStr : Json → Str
  | .null => toStr "null"
  | .bool true => toStr "true"
  | .bool false => toStr "false"
  | .num lex => lex
  | .str s => s
  | .arr _ => []
  | .obj _ => toStr "[object Object]"

/-- The JavaScript test typeof value === 'object' (true for null, arrays
and objects). -/
def Json.typeofIsObj : Json → Bool
  | .null => true
  | .arr _ => true
  | .obj _ => true
  | _ => false

/-- StructuredResponse of the streaming revision of src/api.ts.  The
sources, documents and search_trace entries are copied through as raw
JSON values, exactly as the TypeScript casts do (no field validation). -/
structure StructuredResponse where
  answer : Option Str
  sources : List Json
  documents : Option (List Json)
  search_trace : Option (List Json)
  methodology : Option Str
  limitations : Option Str

/-- ChatResponse of src/api.ts. -/
structure ChatResponse where
  reply : Str
  structuredData : Option StructuredResponse
  raw : Json

/-- normalizeStructuredResponse of the streaming revision of src/api.ts. -/
def normalizeStructuredResponse (data : Json) : StructuredResponse :=
  let candidate : List (Str × Json) := match data with
    | .obj fs => fs
    | _ => []
  { answer := match jlookup candidate (toStr "answer") with
      | some (.str a) => if trim a ≠ [] then some a else none
      | _ => none
    sources := match jlookup candidate (toStr "sources") with
      | some (.arr l) => l
      | _ => []
    documents := match jlookup candidate (toStr "documents") with
      | some (.arr l) => some l
      | _ => none
    search_trace := match jlookup candidate (toStr "search_trace") with
      | some (.arr l) => some l
      | _ => none
    methodology := match jlookup candidate (toStr "methodology") with
      | some (.str s) => some s
      | _ => none
    limitations := match jlookup candidate (toStr "limitations") with
      | some (.str s) => some s
      | _ => none }

/-- safeJsonParse of src/api.ts: empty body decodes to an empty object,
a decode failure falls back to the raw text. -/
def safeJsonParse (text : Str) : Json :=
  if text = [] then .obj []
  else match jsonParse text with
    | some v => v
    | none => .str text

/-- The message-object branch of interpretParsedResponse: the if/else
chain run when output.message is a non-null object.  Returns the reply
and the structured data it assigns; the first component falls back to
the surrounding function's current reply, which is still the initial
placeholder at this point. -/
def msgObjInterpret (m : Json) : Str × Option StructuredResponse :=
  let afterAnswer : Str × Option StructuredResponse :=
    match m.get (toStr "raw") with
    | some (.str r) => (r, none)
    | _ =>
      if m.hasKey (toStr "answer") then
        let normalized := normalizeStructuredResponse m
        match normalized.answer with
        | some a => (a, some normalized)
        | none => (toStr "No response", none)
      else match m.get (toStr "raw") with
        | some (.str r) => (r, none)
        | _ => (jsonStringify m, none)
  match m.get (toStr "answer") with
  | some (.str a) =>
    if trim a ≠ [] then
      (a, some (normalizeStructuredResponse (spreadSet m (toStr "answer") (.str a))))
    else afterAnswer
  | _ => afterAnswer

/-- The response-object branch of interpretParsedResponse. -/
def respObjInterpret (r : Json) : Str × Option StructuredResponse :=
  let afterAnswer : Str × Option StructuredResponse :=
    if r.hasKey (toStr "answer") then
      let normalized := normalizeStructuredResponse r
      match normalized.answer with
      | some a => (a, some normalized)
      | none => (toStr "No response", none)
    else (jsonStringify r, none)
  match r.get (toStr "answer") with
  | some (.str a) =>
    if trim a ≠ [] then
      (a, some (normalizeStructuredResponse (spreadSet r (toStr "answer") (.str a))))
    else afterAnswer
  | _ => afterAnswer

/-- The response-string branch of interpretParsedResponse: the reply is
the string itself unless it decodes to an object with a usable answer
(double-encoded payloads). -/
def respStrInterpret (s : Str) : Str × Option StructuredResponse :=
  match jsonParse s with
  | some mj =>
    if mj.truthy && mj.typeofIsObj && mj.hasKey (toStr "answer") then
      let normalized := normalizeStructuredResponse mj
      match normalized.answer with
      | some a => (a, some normalized)
      | none => (s, none)
    else (s, none)
  | none => (s, none)

/-- interpretParsedResponse of the streaming revision of src/api.ts
(lines 493-561 of the concatenated file). -/
def interpretParsedResponse (parsed : Json) : ChatResponse :=
  if parsed.truthy && parsed.typeofIsObj then
    let output := parsed.get (toStr "output")
    let response := parsed.get (toStr "response")
    if (match output with
        | some o => o.truthy && o.typeofIsObj && o.hasKey (toStr "message")
        | none => false) then
      let m := match output with
        | some o => (o.get (toStr "message")).getD .null
        | none => .null
      match m with
      | .str s => { reply := s, structuredData := none, raw := parsed }
      | _ =>
        if m.truthy && m.typeofIsObj then
          let p := msgObjInterpret m
          { reply := p.1, structuredData := p.2, raw := parsed }
        else { reply := toStr "No response", structuredData := none, raw := parsed }
    else match response with
      | some (.str s) =>
        let p := respStrInterpret s
        { reply := p.1, structuredData := p.2, raw := parsed }
      | some r =>
        if r.truthy && r.typeofIsObj then
          let p := respObjInterpret r
          { reply := p.1, structuredData := p.2, raw := parsed }
        else { reply := jsonStringify parsed, structuredData := none, raw := parsed }
      | none => { reply := jsonStringify parsed, structuredData := none, raw := parsed }
  else match parsed with
    | .str s => { reply := s, structuredData := none, raw := parsed }
    | _ => { reply := toStr "No response", structuredData := none, raw := parsed }

/-- extractThinking of src/api.ts: the first candidate field holding a
non-blank string. -/
def extractThinking (fp : Json) : Option Str :=
  if fp.truthy && fp.typeofIsObj then
    let agentcore := fp.get (toStr "agentcore")
    let response := fp.get (toStr "response")
    let cands : List (Option Json) := [
      fp.get (toStr "thinking"),
      fp.get (toStr "reasoning"),
      agentcore.bind (fun a => a.get (toStr "thinking")),
      agentcore.bind (fun a => a.get (toStr "reasoning")),
      agentcore.bind (fun a => (a.get (toStr "metadata")).bind (fun x => x.get (toStr "thinking"))),
      agentcore.bind (fun a => (a.get (toStr "metadata")).bind (fun x => x.get (toStr "reasoning"))),
      agentcore.bind (fun a => (a.get (toStr "output")).bind (fun x => x.get (toStr "thinking"))),
      agentcore.bind (fun a => (a.get (toStr "output")).bind (fun x => x.get (toStr "reasoning"))),
      response.bind (fun a => a.get (toStr "thinking")),
      response.bind (fun a => a.get (toStr "reasoning")),
      response.bind (fun a => (a.get (toStr "metadata")).bind (fun x => x.get (toStr "thinking"))),
      response.bind (fun a => (a.get (toStr "metadata")).bind (fun x => x.get (toStr "reasoning")))]
    cands.findSome? (fun c => match c with
      | some (.str s) => if trim s ≠ [] then some s else none
      | _ => none)
  else none

/-- parseSseEvent of src/api.ts: collect the data: lines of one SSE frame,
join their payloads, then decode ([DONE] marker, JSON, or plain-text
chunk fallback).  Returns none where the source returns null. -/
def parseSseEvent (segment : Str) : Option Json :=
  let lines := splitChar '\n' segment
  let dataLines :=
    ((lines.map trim).filter (fun l => (toStr "data:").isPrefixOf l)).map
      (fun l => trim (l.drop 5))
  if dataLines = [] then none
  else
    let dataString := joinSep ['\n'] dataLines
    if dataString = [] then none
    else if dataString = toStr "[DONE]" then some (.obj [(toStr "done", .bool true)])
    else match jsonParse dataString with
      | some v => some v
      | none => some (.obj [(toStr "type", .str (toStr "chunk")), (toStr "content", .str dataString)])

/-- The StreamEvent variants of the specification, as dispatched by the
consume loop of consumeStreamResponse. -/
inductive StreamEvent where
  | chunk (text : Str)
  | thinking (text : Str)
  | final (payload : Json)
  | error (message : Str)
  | terminator

/-- The message an error event raises: event.message when truthy
(coerced to a string by the Error constructor), else 'Stream error'. -/
def errMsgOf (e : Json) : Str :=
  match e.get (toStr "message") with
  | some v => if v.truthy then jsToStr v else toStr "Stream error"
  | none => toStr "Stream error"

/-- The message of the TypeError thrown by evaluating ('done' in event)
when the decoded event is a truthy non-object (a number, a non-empty
string, or true).  The host's exact wording is abstracted to a fixed
string; only the fact that this exception is raised, uncaught, matters
to the callers. -/
def jsInTypeErrMsg : Str := toStr "TypeError: cannot use in operator"

/-- The per-event dispatch of the consume loop in consumeStreamResponse,
in source order: the falsiness skip, then ('done' in event) — which
throws a TypeError when the event is a truthy non-object — then the
done marker and the type field.  Events that the loop skips (falsy
events, empty thinking content, chunk without string content, unknown
type) map to ok none; the thrown TypeError maps to error. -/
def classifyEvent (e : Json) : Except Str (Option StreamEvent) :=
  if !e.truthy then .ok none
  else if !e.isObjLike then .error jsInTypeErrMsg
  else .ok (
    if (match e.get (toStr "done") with
        | some v => v.truthy
        | none => false) then some .terminator
    else match e.get (toStr "type") with
      | some (.str t) =>
        if t = toStr "thinking" then
          match e.get (toStr "content") with
          | some (.str c) => if c ≠ [] then some (.thinking c) else none
          | _ => none
        else if t = toStr "chunk" then
          match e.get (toStr "content") with
          | some (.str c) => some (.chunk c)
          | _ => none
        else if t = toStr "final" then some (.final e)
        else if t = toStr "error" then some (.error (errMsgOf e))
        else none
      | _ => none)

/-- Extract the complete (blank-line-terminated) frames from the buffer:
repeatedly split at the leftmost occurrence of the two-newline delimiter,
exactly as the consume loop's indexOf/slice loop does.  Returns the
frames and the unterminated remainder.  Fuel above the buffer length
always suffices (each frame consumes the two delimiter characters). -/
def framesOfBufferF : Nat → Str → List Str × Str
  | 0, b => ([], b)
  | f + 1, b =>
    match findSub (toStr "\n\n") b with
    | none => ([], b)
    | some (frame, rest) =>
      let p := framesOfBufferF f rest
      (frame :: p.1, p.2)

/-- Frame extraction with sufficient fuel. -/
def framesOfBuffer (b : Str) : List Str × Str := framesOfBufferF (b.length + 1) b

/-- All frames the stream consumer sees for a whole byte stream: the
complete frames, plus the end-of-stream flush that appends a synthetic
delimiter when non-whitespace input remains. -/
def sseFrames (s : Str) : List Str :=
  let p := framesOfBuffer s
  if trim p.2 ≠ [] then p.1 ++ (framesOfBuffer (p.2 ++ toStr "\n\n")).1 else p.1

/-- The SSE Frame Parser of the specification, as a whole-stream
function: frames are trimmed, empty frames and undecodable events are
skipped, decoded events are dispatched to StreamEvent variants.  On a
stream whose dispatch throws (a truthy non-object event), the consumer
aborts instead; that path lives in consumeStreamResponse. -/
def sseStreamEvents (s : Str) : List StreamEvent :=
  (sseFrames s).filterMap (fun f =>
    let rawEvent := trim f
    if rawEvent = [] then none
    else match parseSseEvent rawEvent with
      | none => none
      | some ev =>
        match classifyEvent ev with
        | .ok o => o
        | .error _ => none)

/-- Which callbacks the caller of invokeAgent supplied. -/
structure CsOptions where
  hasOnChunk : Bool
  hasOnThinking : Bool

/-- One recorded callback invocation: onChunk(text), or onThinking with
the update object's delta, replace and done members. -/
inductive CbCall where
  | onChunk (s : Str)
  | onThinking (delta : Option Str) (replace : Option Str) (done : Bool)

/-- The local state of one consumeStreamResponse run, together with the
trace of callback invocations performed so far. -/
structure CsState where
  buffer : Str
  aggregated : Str
  finalPayload : Option Json
  thinkingBuffer : Str
  thinkingFinalized : Bool
  trace : List CbCall

/-- Initial consumer state. -/
def initCsState : CsState :=
  { buffer := [], aggregated := [], finalPayload := none,
    thinkingBuffer := [], thinkingFinalized := false, trace := [] }

/-- notifyThinkingDone of src/api.ts: a no-op once finalized; otherwise
one onThinking call carrying done = true (with a replace payload when
the final text is non-blank), performed only when the caller supplied
the callback, after which the finalized flag is set either way. -/
def notifyThinkingDone (opts : CsOptions) (st : CsState) (finalText : Option Str) : CsState :=
  if st.thinkingFinalized then st
  else
    let call : CbCall := match finalText with
      | some t =>
        if t ≠ [] ∧ trim t ≠ [] then .onThinking none (some t) true
        else .onThinking none none true
      | none => .onThinking none none true
    { st with
      trace := if opts.hasOnThinking then st.trace ++ [call] else st.trace,
      thinkingFinalized := true }

/-- Processing of one complete frame by the consume loop; the second
component is the message of the exception the loop throws: the Error of
an error event (preceded by the done notification) or the TypeError of
the in operator on a truthy non-object event (with no notification). -/
def processFrame (opts : CsOptions) (st : CsState) (frame : Str) : CsState × Option Str :=
  let rawEvent := trim frame
  if rawEvent = [] then (st, none)
  else match parseSseEvent rawEvent with
    | none => (st, none)
    | some ev =>
      match classifyEvent ev with
      | .error e => (st, some e)
      | .ok none => (st, none)
      | .ok (some .terminator) => (st, none)
      | .ok (some (.thinking c)) =>
        ({ st with
           thinkingBuffer := st.thinkingBuffer ++ c,
           trace := st.trace ++ (if opts.hasOnThinking then [.onThinking (some c) none false] else []) },
         none)
      | .ok (some (.chunk c)) =>
        ({ st with
           aggregated := st.aggregated ++ c,
           trace := st.trace ++ (if opts.hasOnChunk then [.onChunk c] else []) },
         none)
      | .ok (some (.final _)) => ({ st with finalPayload := some ev }, none)
      | .ok (some (.error msg)) => (notifyThinkingDone opts st none, some msg)

/-- Run the consume loop over a list of already-extracted frames,
stopping at a thrown error. -/
def consumeFrames (opts : CsOptions) : List Str → CsState → CsState × Option Str
  | [], st => (st, none)
  | f :: rest, st =>
    match processFrame opts st f with
    | (st2, some e) => (st2, some e)
    | (st2, none) => consumeFrames opts rest st2

/-- One call of the consume closure: drain every complete frame from the
buffer. -/
def consumeBuf (opts : CsOptions) (st : CsState) : CsState × Option Str :=
  let p := framesOfBuffer st.buffer
  consumeFrames opts p.1 { st with buffer := p.2 }

/-- The reader loop of consumeStreamResponse: append each received chunk
of decoded bytes to the buffer and drain it. -/
def readLoop (opts : CsOptions) : List Str → CsState → CsState × Option Str
  | [], st => (st, none)
  | ch :: rest, st =>
    match consumeBuf opts { st with buffer := st.buffer ++ ch } with
    | (st2, some e) => (st2, some e)
    | (st2, none) => readLoop opts rest st2

/-- The finalization phase of consumeStreamResponse: build the final
ChatResponse from the stashed final payload or the aggregated chunk
text, delivering the terminal thinking notification. -/
def finalizeStream (opts : CsOptions) (st2 : CsState) :
    Except Str ChatResponse × List CbCall :=
  match st2.finalPayload with
      | some fp =>
        let synthetic : Json := .obj (
          (match fp.get (toStr "agentcore") with
            | some v => [(toStr "output", v)]
            | none => []) ++
          (match fp.get (toStr "response") with
            | some v => [(toStr "response", v)]
            | none => []))
        let interpreted := interpretParsedResponse synthetic
        let interpreted2 :=
          if st2.aggregated ≠ [] ∧ (interpreted.reply = [] ∨ interpreted.reply = toStr "No response")
          then { interpreted with reply := st2.aggregated }
          else interpreted
        let interpreted3 := { interpreted2 with raw := fp }
        let finalThinking := (extractThinking fp).getD st2.thinkingBuffer
        let st3 := if opts.hasOnThinking then notifyThinkingDone opts st2 (some finalThinking) else st2
        (.ok interpreted3, st3.trace)
      | none =>
        if st2.aggregated ≠ [] then
          let st3 := if opts.hasOnThinking then notifyThinkingDone opts st2 (some st2.thinkingBuffer) else st2
          (.ok { reply := st2.aggregated, structuredData := none, raw := .str st2.aggregated }, st3.trace)
        else
          let st3 := if opts.hasOnThinking then notifyThinkingDone opts st2 (some st2.thinkingBuffer) else st2
          (.ok { reply := toStr "No response", structuredData := none, raw := .null }, st3.trace)

/-- consumeStreamResponse of src/api.ts over a byte stream modelled as
the list of chunk strings the reader yields: drive the reader loop,
flush the unterminated remainder, then finalize.  Returns the result
(or the thrown error message) together with the full callback trace. -/
def consumeStreamResponse (opts : CsOptions) (chunks : List Str) :
    Except Str ChatResponse × List CbCall :=
  match readLoop opts chunks initCsState with
  | (st, some e) => (.error e, st.trace)
  | (st, none) =>
    let flushed :=
      if trim st.buffer ≠ [] then consumeBuf opts { st with buffer := st.buffer ++ toStr "\n\n" }
      else (st, none)
    match flushed with
    | (st2, some e) => (.error e, st2.trace)
    | (st2, none) => finalizeStream opts st2

/-- A chat history entry. -/
structure ChatMessageM where
  role : Str
  content : Str

/-- ChatRequest of the streaming revision of src/api.ts.  An absent
history is modelled as the empty list (both are skipped identically when
building the payload). -/
structure ChatRequestM where
  message : Str
  history : List ChatMessageM
  modelId : Option Str
  sessionId : Option Str

/-- JavaScript truthiness of an optional string request field. -/
def optStrTruthy : Option Str → Bool
  | some s => s ≠ []
  | none => false

/-- buildPayload of the streaming revision of src/api.ts: prompt, an
input object holding model_id and session_id when truthy, the same two
fields again at top level, and the history when non-empty. -/
def buildPayload (req : ChatRequestM) : Json :=
  let inputFields : List (Str × Json) :=
    (match req.modelId with
      | some s => if s ≠ [] then [(toStr "model_id", .str s)] else []
      | none => []) ++
    (match req.sessionId with
      | some s => if s ≠ [] then [(toStr "session_id", .str s)] else []
      | none => [])
  .obj ([(toStr "prompt", .str req.message)] ++
    (if inputFields.isEmpty then [] else [(toStr "input", Json.obj inputFields)]) ++
    (match req.modelId with
      | some s => if s ≠ [] then [(toStr "model_id", .str s)] else []
      | none => []) ++
    (match req.sessionId with
      | some s => if s ≠ [] then [(toStr "session_id", .str s)] else []
      | none => []) ++
    (if req.history.isEmpty then []
     else
      [(toStr "history", Json.arr (req.history.map (fun m =>
        Json.obj [(toStr "role", .str m.role), (toStr "content", .str m.content)])))]))

/-- One HTTP response of the abstract transport: status, content type,
whole body text, and the chunk sequence obtained when the body is read
as a stream. -/
structure HttpResp where
  status : Nat
  contentType : Str
  body : Str
  chunks : List Str

/-- One request as issued by invokeAgent: the Accept header and the JSON
payload sent. -/
structure ReqRecord where
  accept : Str
  payload : Json

/-- Response.ok of the fetch API. -/
def resOk (r : HttpResp) : Prop := 200 ≤ r.status ∧ r.status < 300

instance (r : HttpResp) : Decidable (resOk r) := by
  unfold resOk
  infer_instance

/-- The HTTP nnn fallback error message. -/
def httpStatusMsg (n : Nat) : Str := toStr "HTTP " ++ natToStr n

/-- The two case-insensitive regular-expression tests deciding whether a
streaming failure is retried without SSE. -/
def retryableStreamErr (msg : Str) : Bool :=
  hasSubCI (toStr "response ended prematurely") msg || hasSubCI (toStr "stream error") msg

/-- invokeAgent of the streaming revision of src/api.ts, over an abstract
transport: net n is the response to the n-th fetch this call issues.
The returned list records every request issued, in order.  The token is
the credential the external session provider yields; res.body (the
stream handle) is always present in this model. -/
def invokeAgent (token : Option Str) (req : ChatRequestM) (opts : CsOptions)
    (net : Nat → HttpResp) : Except Str ChatResponse × List ReqRecord :=
  match token with
  | none => (.error (toStr "Unable to acquire access token for AgentCore invocation"), [])
  | some _ =>
    let accept0 := if opts.hasOnChunk then toStr "text/event-stream" else toStr "application/json"
    let basePayload :=
      if opts.hasOnChunk then spreadSet (buildPayload req) (toStr "stream") (.bool true)
      else buildPayload req
    let req0 : ReqRecord := { accept := accept0, payload := basePayload }
    let res := net 0
    if res.status = 404 ∧ accept0 = toStr "text/event-stream" then
      let retryRes := net 1
      let log := [req0, { accept := toStr "application/json", payload := buildPayload req }]
      if resOk retryRes then (.ok (interpretParsedResponse (safeJsonParse retryRes.body)), log)
      else (.error (if retryRes.body ≠ [] then retryRes.body else httpStatusMsg retryRes.status), log)
    else if res.status = 400 ∧ accept0 = toStr "text/event-stream" then
      let errorBody := res.body
      let retryRes := net 1
      let log := [req0, { accept := toStr "application/json", payload := buildPayload req }]
      if resOk retryRes then (.ok (interpretParsedResponse (safeJsonParse retryRes.body)), log)
      else
        let message := if retryRes.body ≠ [] then retryRes.body else errorBody
        (.error (if message ≠ [] then message else httpStatusMsg retryRes.status), log)
    else if 400 ≤ res.status then
      (.error (if res.body ≠ [] then res.body else httpStatusMsg res.status), [req0])
    else if opts.hasOnChunk && hasSub (toStr "text/event-stream") res.contentType then
      match consumeStreamResponse opts res.chunks with
      | (.ok cr, _) => (.ok cr, [req0])
      | (.error msg, _) =>
        if retryableStreamErr msg then
          let retryRes := net 1
          let log := [req0, { accept := toStr "application/json", payload := buildPayload req }]
          if resOk retryRes then (.ok (interpretParsedResponse (safeJsonParse retryRes.body)), log)
          else
            (.error (if retryRes.body ≠ [] then retryRes.body
              else if msg ≠ [] then msg else httpStatusMsg retryRes.status), log)
        else (.error msg, [req0])
    else (.ok (interpretParsedResponse (safeJsonParse res.body)), [req0])

/-- The lower-case opening tag constant of extractAssistantSurface. -/
def openTagL : Str := toStr "<thinking>"

/-- The lower-case closing tag constant of extractAssistantSurface. -/
def closeTagL : Str := toStr "</thinking>"

/-- One pass of the tag-removal regex of src/App.tsx (matching an
opening or closing thinking tag case-insensitively, replaced by the
empty string).  Fuel above the input length always suffices, since
every step consumes at least one character. -/
def removeTagsF : Nat → Str → Str
  | 0, s => s
  | _ + 1, [] => []
  | f + 1, c :: rest =>
    if ciAtStart openTagL (c :: rest) then removeTagsF f ((c :: rest).drop openTagL.length)
    else if ciAtStart closeTagL (c :: rest) then removeTagsF f ((c :: rest).drop closeTagL.length)
    else c :: removeTagsF f rest

/-- Tag removal with sufficient fuel. -/
def removeTags (s : Str) : Str := removeTagsF (s.length + 1) s

/-- Emit a pending run of newlines, collapsing runs of three or more to
exactly two. -/
def emitNl (pending : Nat) : Str :=
  if pending ≥ 3 then toStr "\n\n" else List.replicate pending '\n'

/-- Scanner for the newline-collapsing regex of src/App.tsx, carrying
the length of the current newline run. -/
def collapseNLAux : Nat → Str → Str
  | pending, [] => emitNl pending
  | pending, c :: rest =>
    if c = '\n' then collapseNLAux (pending + 1) rest
    else emitNl pending ++ c :: collapseNLAux 0 rest

/-- Replace every run of three or more newlines by exactly two. -/
def collapseNewlines (s : Str) : Str := collapseNLAux 0 s

/-- The scanning loop of extractAssistantSurface: visible runs, thinking
runs, and whether the last opening tag was left unterminated.  Mirrors
the cursor loop over lower.indexOf of the source; fuel above the input
length always suffices since every iteration consumes both tags. -/
def splitThinkingF : Nat → Str → List Str × List Str × Bool
  | 0, s => ([s], [], false)
  | f + 1, s =>
    if s.isEmpty then ([], [], false)
    else match findCI openTagL s with
      | none => ([s], [], false)
      | some (pre, post) =>
        match findCI closeTagL post with
        | none => ([pre], [post], true)
        | some (inner, rest) =>
          let r := splitThinkingF f rest
          (pre :: r.1, inner :: r.2.1, r.2.2)

/-- The result record of extractAssistantSurface (the source's open
member is called stillOpen here, matching its local variable). -/
structure Surface where
  visible : Str
  thinking : Str
  stillOpen : Bool
deriving DecidableEq, Repr

/-- extractAssistantSurface of src/App.tsx. -/
def extractAssistantSurface (text : Str) : Surface :=
  if text.isEmpty then { visible := [], thinking := [], stillOpen := false }
  else
    let r := splitThinkingF (text.length + 1) text
    { visible := trim (collapseNewlines (removeTags r.1.flatten)),
      thinking := joinSep (toStr "\n\n")
        (((r.2.1).map (fun part => trim (removeTags part))).filter (fun p => !p.isEmpty)),
      stillOpen := r.2.2 }

/-- A citation marker match: the digit run of the capture group and the
input after the whole match. -/
def matchCitation : Str → Option (Str × Str)
  | '%' :: '[' :: rest =>
    (match rest.span Char.isDigit with
     | ([], _) => none
     | (ds, more) =>
       match more with
       | ']' :: '%' :: rest2 => some (ds, rest2)
       | _ => none)
  | _ => none

/-- Left-to-right non-overlapping scan of the citation regex, yielding
the capture groups in source order.  Fuel above the input length always
suffices, since every step consumes at least one character. -/
def scanCitationsF : Nat → Str → List Str
  | 0, _ => []
  | _ + 1, [] => []
  | f + 1, c :: rest =>
    match matchCitation (c :: rest) with
    | some (ds, rest2) => ds :: scanCitationsF f rest2
    | none => scanCitationsF f rest

/-- A JavaScript number obtained from converting a citation digit run:
its exact value while it stays below the double-precision overflow
threshold, and Infinity from there on.  Finite values are idealized as
exact integers (parseInt and Number round huge finite digit runs to the
same double in both revisions, so the rounding never separates them);
the Infinity cutoff is modelled exactly since it is the one point where
the two revisions diverge. -/
inductive JsNum where
  | fin (n : Nat)
  | inf
deriving DecidableEq, Repr

/-- The smallest magnitude rounding to Infinity in double precision:
the midpoint above the largest finite double. -/
def jsOverflow : Nat := 2 ^ 1024 - 2 ^ 970

/-- parseInt (src/api.ts) and Number (the pass-through revision) on a
citation digit run. -/
def jsNumOfDigits (ds : Str) : JsNum :=
  if digitsToNat ds < jsOverflow then .fin (digitsToNat ds) else .inf

/-- Number.isFinite on such a value. -/
def JsNum.isFinite : JsNum → Bool
  | .fin _ => true
  | .inf => false

/-- The ordering induced by the comparator a.number - b.number: finite
values by magnitude, Infinity last (the comparator yields NaN on two
Infinities, which Array.prototype.sort treats as zero). -/
def JsNum.leB : JsNum → JsNum → Bool
  | _, .inf => true
  | .inf, .fin _ => false
  | .fin a, .fin b => a ≤ b

instance : LE JsNum := ⟨fun a b => JsNum.leB a b = true⟩

instance (a b : JsNum) : Decidable (a ≤ b) :=
  inferInstanceAs (Decidable (JsNum.leB a b = true))

/-- The strict companion of the comparator ordering: every finite value
sits strictly below Infinity. -/
def JsNum.ltB : JsNum → JsNum → Bool
  | .inf, _ => false
  | .fin _, .inf => true
  | .fin a, .fin b => a < b

instance : LT JsNum := ⟨fun a b => JsNum.ltB a b = true⟩

instance (a b : JsNum) : Decidable (a < b) :=
  inferInstanceAs (Decidable (JsNum.ltB a b = true))

/-- String interpolation of such a value, as in citation-N ids. -/
def jsNumToStr : JsNum → Str
  | .fin n => natToStr n
  | .inf => toStr "Infinity"

/-- The citation numbers appearing in a text, in order, with duplicates,
as the number conversion of both revisions sees them. -/
def scanCitationNums (text : Str) : List JsNum :=
  (scanCitationsF (text.length + 1) text).map jsNumOfDigits

/-- The replacement pass producing cleanText in the src/api.ts revision:
each marker becomes a placeholder carrying the digit run as written. -/
def replaceCitationsF : Nat → Str → Str
  | 0, s => s
  | _ + 1, [] => []
  | f + 1, c :: rest =>
    match matchCitation (c :: rest) with
    | some (ds, rest2) => toStr "__CITATION_" ++ ds ++ toStr "__" ++ replaceCitationsF f rest2
    | none => c :: replaceCitationsF f rest

/-- First-occurrence deduplication with a seen set, as performed with the
Set in both parseCitations revisions. -/
def dedupNumsAux : List JsNum → List JsNum → List JsNum
  | _, [] => []
  | seen, n :: rest =>
    if n ∈ seen then dedupNumsAux seen rest else n :: dedupNumsAux (n :: seen) rest

/-- Deduplicate by number, keeping first occurrences. -/
def dedupNums (l : List JsNum) : List JsNum := dedupNumsAux [] l

/-- A Citation value of the sources. -/
structure Citation where
  id : Str
  number : JsNum
deriving DecidableEq, Repr

/-- Build one Citation from its number: both revisions interpolate the
number into the id the same way. -/
def mkCitation (n : JsNum) : Citation :=
  { id := toStr "citation-" ++ jsNumToStr n, number := n }

/-- The citations.sort((a, b) => a.number - b.number) call: a stable
comparison sort by number. -/
def sortCitations (l : List Citation) : List Citation :=
  List.insertionSort (fun a b => a.number ≤ b.number) l

/-- The result shape of parseCitations. -/
structure CitationsResult where
  citations : List Citation
  cleanText : Str
deriving DecidableEq, Repr

/-- parseCitations of the streaming revision of src/api.ts: scan, dedupe
by number, sort ascending, and rewrite markers to placeholder text. -/
def parseCitations (text : Str) : CitationsResult :=
  { citations := sortCitations ((dedupNums (scanCitationNums text)).map mkCitation),
    cleanText := replaceCitationsF (text.length + 1) text }

/-- parseCitations of the pass-through revision (src/unnamed/part_003):
the same single pattern scanned through the CITATION_PATTERNS loop with
the same dedupe-and-sort, but guarded by Number.isFinite — markers whose
value overflows to Infinity are dropped — and the text is returned
untouched. -/
def parseCitationsPassthrough (text : Str) : CitationsResult :=
  { citations :=
      sortCitations ((dedupNums ((scanCitationNums text).filter JsNum.isFinite)).map mkCitation),
    cleanText := text }

/-- A citation marker whose 309-digit value overflows double precision
to Infinity, used as the C10 counterexample text. -/
def c10bigW : Str := toStr "%[" ++ List.replicate 309 '9' ++ toStr "]%"

/-- The concrete all-finite text of the C10 witness. -/
def c10finW : Str := toStr "see %[12]% and %[3]% and %[12]%"

/-- One well-formed thinking region of an input to the Splitter: some
plain text, an opening tag (in any character case), the inner text, and
a closing tag (in any character case). -/
structure TRegion where
  plain : Str
  tagO : Str
  inner : Str
  tagC : Str

/-- Well-formedness of a region: plain and inner text free of the tag
marker character, tags that lower-case to the canonical tags. -/
def TRegion.Valid (r : TRegion) : Prop :=
  '<' ∉ r.plain ∧ lowerStr r.tagO = openTagL ∧ '<' ∉ r.inner ∧ lowerStr r.tagC = closeTagL

instance (r : TRegion) : Decidable r.Valid := by
  unfold TRegion.Valid
  infer_instance

/-- Assemble an input text from a list of regions followed by an ending. -/
def assembleT : List TRegion → Str → Str
  | [], ending => ending
  | r :: rs, ending => r.plain ++ (r.tagO ++ (r.inner ++ (r.tagC ++ assembleT rs ending)))

/-- A concrete well-formed region used as the C4 example input. -/
def c4regW : TRegion :=
  { plain := toStr "Intro ", tagO := toStr "<Thinking>",
    inner := toStr " deep thought ", tagC := toStr "</THINKING>" }

/-- The concrete trailing text of the C4 example input. -/
def c4tailW : Str := toStr " done"

/-- A concrete well-formed region used in the C5 example input. -/
def c5regW : TRegion :=
  { plain := toStr "Plan: ", tagO := toStr "<THINKING>",
    inner := toStr "step one", tagC := toStr "</thinking>" }

/-- The plain text before the unterminated opening tag of the C5
example input. -/
def c5preW : Str := toStr " so far "

/-- The mixed-case unterminated opening tag of the C5 example input. -/
def c5tagW : Str := toStr "<ThInKiNg>"

/-- The trailing text after the unterminated opening tag of the C5
example input. -/
def c5tailW : Str := toStr " unfinished thought"

/-! Supporting lemmas. -/

theorem jlookup_append (l1 l2 : List (Str × Json)) (k : Str) :
    jlookup (l1 ++ l2) k =
      match jlookup l1 k with
      | some v => some v
      | none => jlookup l2 k := by
  induction l1 with
  | nil => simp [jlookup]
  | cons p rest ih =>
    obtain ⟨pk, pv⟩ := p
    by_cases h : pk = k
    · simp [jlookup, h]
    · simp [jlookup, h, ih]

theorem jlookup_objSet_self (fs : List (Str × Json)) (k : Str) (v : Json) :
    jlookup (objSet fs k v) k = some v := by
  induction fs with
  | nil => simp [objSet, jlookup]
  | cons p rest ih =>
    obtain ⟨k1, v1⟩ := p
    by_cases h : k1 = k
    · simp [objSet, h, jlookup]
    · simp [objSet, h, jlookup, ih]

theorem jlookup_objSet_ne (fs : List (Str × Json)) (k k2 : Str) (v : Json)
    (h : k2 ≠ k) : jlookup (objSet fs k v) k2 = jlookup fs k2 := by
  induction fs with
  | nil => simp [objSet, jlookup, Ne.symm h]
  | cons p rest ih =>
    obtain ⟨k1, v1⟩ := p
    by_cases h1 : k1 = k
    · subst h1
      simp [objSet, jlookup, Ne.symm h]
    · by_cases h2 : k1 = k2
      · subst h2
        simp [objSet, h1, jlookup, h]
      · simp [objSet, h1, jlookup, h2, ih]

/-! Claim C10: the two parseCitations revisions agree on citations. -/

set_option maxRecDepth 40000 in
/-- C10 counterexample: on the text carrying one 309-digit marker the
api.ts revision keeps a citation numbered Infinity (parseInt overflows
with no guard) while the pass-through revision's Number.isFinite guard
drops the marker, so the two citation sequences differ. -/
theorem c10_counterexample :
    (parseCitations c10bigW).citations ≠ (parseCitationsPassthrough c10bigW).citations ∧
    (parseCitations c10bigW).citations = [mkCitation .inf] ∧
    (parseCitationsPassthrough c10bigW).citations = [] := by
  refine ⟨?_, ?_, ?_⟩ <;> decide

/-- C10 (amended): the two parseCitations revisions produce identical
citation sequences on every text all of whose markers carry finite
values (below the double-precision overflow threshold), differing only
in the cleanText beside them — the pass-through revision returns the
text untouched while the api.ts revision rewrites the markers to
placeholders; they diverge exactly on markers overflowing to Infinity,
which api.ts keeps and part_003 drops. -/
theorem c10_finite_markers_agree (text : Str)
    (h : ∀ n ∈ scanCitationNums text, JsNum.isFinite n = true) :
    (parseCitations text).citations = (parseCitationsPassthrough text).citations ∧
    (parseCitationsPassthrough text).cleanText = text ∧
    (parseCitations text).cleanText = replaceCitationsF (text.length + 1) text := by
  refine ⟨?_, rfl, rfl⟩
  unfold parseCitations parseCitationsPassthrough
  dsimp only []
  rw [List.filter_eq_self.mpr h]

set_option maxRecDepth 40000 in
/-- Witness for C10 at a concrete text whose markers are all finite. -/
theorem c10_finite_markers_agree_witness :
    (∀ n ∈ scanCitationNums c10finW, JsNum.isFinite n = true) ∧
    ((parseCitations c10finW).citations = (parseCitationsPassthrough c10finW).citations ∧
     (parseCitationsPassthrough c10finW).cleanText = c10finW ∧
     (parseCitations c10finW).cleanText = replaceCitationsF (c10finW.length + 1) c10finW) :=
  ⟨by decide, c10_finite_markers_agree c10finW (by decide)⟩

theorem mem_dedupNumsAux (l : List JsNum) : ∀ (seen : List JsNum) (n : JsNum),
    n ∈ dedupNumsAux seen l ↔ (n ∈ l ∧ n ∉ seen) := by
  induction l with
  | nil => intro seen n; simp [dedupNumsAux]
  | cons m rest ih =>
    intro seen n
    by_cases hm : m ∈ seen
    · simp only [dedupNumsAux, if_pos hm]
      rw [ih]
      constructor
      · rintro ⟨h1, h2⟩
        exact ⟨List.mem_cons_of_mem _ h1, h2⟩
      · rintro ⟨h1, h2⟩
        rcases List.mem_cons.mp h1 with h | h
        · exact absurd (h ▸ hm) h2
        · exact ⟨h, h2⟩
    · simp only [dedupNumsAux, if_neg hm]
      rw [List.mem_cons, ih]
      constructor
      · rintro (h | ⟨h1, h2⟩)
        · subst h
          exact ⟨List.mem_cons_self _ _, hm⟩
        · constructor
          · exact List.mem_cons_of_mem _ h1
          · intro hc
            exact h2 (List.mem_cons_of_mem _ hc)
      · rintro ⟨h1, h2⟩
        rcases List.mem_cons.mp h1 with h | h
        · exact Or.inl h
        · by_cases hn : n = m
          · exact Or.inl hn
          · refine Or.inr ⟨h, ?_⟩
            intro hc
            rcases List.mem_cons.mp hc with h3 | h3
            · exact hn h3
            · exact h2 h3

theorem nodup_dedupNumsAux (l : List JsNum) : ∀ (seen : List JsNum),
    (dedupNumsAux seen l).Nodup := by
  induction l with
  | nil => intro seen; simp [dedupNumsAux]
  | cons m rest ih =>
    intro seen
    by_cases hm : m ∈ seen
    · simp only [dedupNumsAux, if_pos hm]
      exact ih seen
    · simp only [dedupNumsAux, if_neg hm]
      refine List.Nodup.cons ?_ (ih (m :: seen))
      intro hc
      have := (mem_dedupNumsAux rest (m :: seen) m).mp hc
      exact this.2 (List.mem_cons_self _ _)

theorem mem_dedupNums (l : List JsNum) (n : JsNum) : n ∈ dedupNums l ↔ n ∈ l := by
  unfold dedupNums
  rw [mem_dedupNumsAux]
  simp

theorem nodup_dedupNums (l : List JsNum) : (dedupNums l).Nodup := nodup_dedupNumsAux l []

theorem jsNum_le_total (a b : JsNum) : a ≤ b ∨ b ≤ a := by
  show JsNum.leB a b = true ∨ JsNum.leB b a = true
  cases a with
  | inf =>
    refine Or.inr ?_
    cases b <;> rfl
  | fin na =>
    cases b with
    | inf => exact Or.inl rfl
    | fin nb =>
      rcases Nat.le_total na nb with h | h
      · exact Or.inl (by simpa [JsNum.leB] using h)
      · exact Or.inr (by simpa [JsNum.leB] using h)

theorem jsNum_le_trans {a b c : JsNum} (h1 : a ≤ b) (h2 : b ≤ c) : a ≤ c := by
  have h1' : JsNum.leB a b = true := h1
  have h2' : JsNum.leB b c = true := h2
  show JsNum.leB a c = true
  cases a with
  | inf =>
    cases c with
    | inf => rfl
    | fin nc =>
      cases b with
      | inf => exact absurd h2' (by simp [JsNum.leB])
      | fin nb => exact absurd h1' (by simp [JsNum.leB])
  | fin na =>
    cases c with
    | inf => rfl
    | fin nc =>
      cases b with
      | inf => exact absurd h2' (by simp [JsNum.leB])
      | fin nb =>
        have g1 : na ≤ nb := by simpa [JsNum.leB] using h1'
        have g2 : nb ≤ nc := by simpa [JsNum.leB] using h2'
        simpa [JsNum.leB] using Nat.le_trans g1 g2

theorem jsNum_lt_or_le (a b : JsNum) : a < b ∨ b ≤ a := by
  show JsNum.ltB a b = true ∨ JsNum.leB b a = true
  cases a with
  | inf =>
    refine Or.inr ?_
    cases b <;> rfl
  | fin na =>
    cases b with
    | inf => exact Or.inl rfl
    | fin nb =>
      rcases Nat.lt_or_ge na nb with h | h
      · exact Or.inl (by simpa [JsNum.ltB] using h)
      · exact Or.inr (by simpa [JsNum.leB] using h)

theorem jsNum_le_antisymm {a b : JsNum} (h1 : a ≤ b) (h2 : b ≤ a) : a = b := by
  have h1' : JsNum.leB a b = true := h1
  have h2' : JsNum.leB b a = true := h2
  cases a with
  | inf =>
    cases b with
    | inf => rfl
    | fin nb => exact absurd h1' (by simp [JsNum.leB])
  | fin na =>
    cases b with
    | inf => exact absurd h2' (by simp [JsNum.leB])
    | fin nb =>
      have g1 : na ≤ nb := by simpa [JsNum.leB] using h1'
      have g2 : nb ≤ na := by simpa [JsNum.leB] using h2'
      rw [Nat.le_antisymm g1 g2]

instance : IsTotal Citation (fun a b => a.number ≤ b.number) :=
  ⟨fun a b => jsNum_le_total a.number b.number⟩

instance : IsTrans Citation (fun a b => a.number ≤ b.number) :=
  ⟨fun _ _ _ h1 h2 => jsNum_le_trans h1 h2⟩

theorem sorted_sortCitations (l : List Citation) :
    List.Sorted (fun a b => a.number ≤ b.number) (sortCitations l) :=
  List.sorted_insertionSort _ l

theorem perm_sortCitations (l : List Citation) : (sortCitations l).Perm l :=
  List.perm_insertionSort _ l

theorem pairwise_and_of {α : Type} {R S : α → α → Prop} :
    ∀ {l : List α}, l.Pairwise R → l.Pairwise S → l.Pairwise (fun a b => R a b ∧ S a b) := by
  intro l
  induction l with
  | nil => intro _ _; exact List.Pairwise.nil
  | cons a rest ih =>
    intro hR hS
    rcases List.pairwise_cons.mp hR with ⟨hRa, hRrest⟩
    rcases List.pairwise_cons.mp hS with ⟨hSa, hSrest⟩
    exact List.pairwise_cons.mpr ⟨fun b hb => ⟨hRa b hb, hSa b hb⟩, ih hRrest hSrest⟩

/-! Claim C8: parseCitations deduplicates by number and sorts ascending. -/

/-- The shared dedupe-and-sort pipeline of both revisions, on any list
of scanned numbers: strictly ascending citations whose numbers are
exactly the scanned ones. -/
theorem citations_pipeline (nums : List JsNum) :
    List.Pairwise (fun c d => c.number < d.number)
      (sortCitations ((dedupNums nums).map mkCitation)) ∧
    (∀ n, (∃ c ∈ sortCitations ((dedupNums nums).map mkCitation), c.number = n) ↔ n ∈ nums) := by
  have hperm := perm_sortCitations ((dedupNums nums).map mkCitation)
  have hsorted := sorted_sortCitations ((dedupNums nums).map mkCitation)
  have hinj : Function.Injective mkCitation := by
    intro a b hab
    have : (mkCitation a).number = (mkCitation b).number := by rw [hab]
    simpa [mkCitation] using this
  have hnodupL : ((dedupNums nums).map mkCitation).Nodup :=
    (nodup_dedupNums nums).map hinj
  have hnodupS : (sortCitations ((dedupNums nums).map mkCitation)).Nodup :=
    (hperm.nodup_iff).mpr hnodupL
  have hcanon : ∀ c ∈ sortCitations ((dedupNums nums).map mkCitation),
      c = mkCitation c.number := by
    intro c hc
    have hc2 := hperm.subset hc
    rcases List.mem_map.mp hc2 with ⟨n, _, hn⟩
    rw [← hn]
    rfl
  constructor
  · have hne : (sortCitations ((dedupNums nums).map mkCitation)).Pairwise
        (fun c d => c ≠ d) := hnodupS
    have hand := pairwise_and_of hsorted hne
    refine hand.imp_of_mem ?_
    intro c d hc hd hcd
    rcases hcd with ⟨hle, hne2⟩
    rcases jsNum_lt_or_le c.number d.number with h | h
    · exact h
    · exfalso
      have heq : c.number = d.number := jsNum_le_antisymm hle h
      have : c = d := by
        rw [hcanon c hc, hcanon d hd, heq]
      exact hne2 this
  · intro n
    constructor
    · rintro ⟨c, hc, hcn⟩
      have hc2 := hperm.subset hc
      rcases List.mem_map.mp hc2 with ⟨m, hm, hmc⟩
      have : m = n := by
        rw [← hcn, ← hmc]
        rfl
      rw [← this]
      exact (mem_dedupNums _ _).mp hm
    · intro hn
      refine ⟨mkCitation n, ?_, rfl⟩
      exact hperm.mem_iff.mpr (List.mem_map.mpr ⟨n, (mem_dedupNums _ _).mpr hn, rfl⟩)

set_option maxRecDepth 40000 in
/-- C8: in both revisions citation markers are deduplicated by number
and the resulting sequence is strictly ascending by number; a citation
number appears in the api.ts result exactly when it appears among the
scanned markers (in the pass-through result, among the finite scanned
markers its guard keeps); resolution of the same text twice gives the
same result; and a text carrying three occurrences of the marker
number 7 yields exactly one Citation numbered 7. -/
theorem c8_parseCitations_dedup_sorted (text : Str) :
    List.Pairwise (fun c d => c.number < d.number) (parseCitations text).citations ∧
    (∀ n, (∃ c ∈ (parseCitations text).citations, c.number = n) ↔ n ∈ scanCitationNums text) ∧
    List.Pairwise (fun c d => c.number < d.number) (parseCitationsPassthrough text).citations ∧
    (∀ n, (∃ c ∈ (parseCitationsPassthrough text).citations, c.number = n) ↔
      n ∈ (scanCitationNums text).filter JsNum.isFinite) ∧
    parseCitations text = parseCitations text ∧
    (parseCitations (toStr "a %[7]% b %[7]% c %[7]%")).citations =
      [{ id := toStr "citation-7", number := .fin 7 }] :=
  ⟨(citations_pipeline (scanCitationNums text)).1,
   (citations_pipeline (scanCitationNums text)).2,
   (citations_pipeline ((scanCitationNums text).filter JsNum.isFinite)).1,
   (citations_pipeline ((scanCitationNums text).filter JsNum.isFinite)).2,
   rfl, by decide⟩

theorem jlookup_single_ne (k1 k : Str) (v : Json) (h : k1 ≠ k) :
    jlookup [(k1, v)] k = none := by
  simp [jlookup, h]

theorem jlookup_append_none (l1 l2 : List (Str × Json)) (k : Str)
    (h1 : jlookup l1 k = none) (h2 : jlookup l2 k = none) :
    jlookup (l1 ++ l2) k = none := by
  rw [jlookup_append, h1, h2]

theorem buildPayload_get_stream (req : ChatRequestM) :
    (buildPayload req).get (toStr "stream") = none := by
  unfold buildPayload
  simp only [Json.get]
  apply jlookup_append_none
  apply jlookup_append_none
  apply jlookup_append_none
  apply jlookup_append_none
  · simp +decide [jlookup]
  · split
    · simp [jlookup]
    · simp +decide [jlookup]
  · split <;> first
      | (split <;> simp +decide [jlookup])
      | simp [jlookup]
  · split <;> first
      | (split <;> simp +decide [jlookup])
      | simp [jlookup]
  · split
    · simp [jlookup]
    · simp +decide [jlookup]

theorem spreadSet_buildPayload_stream (req : ChatRequestM) :
    (spreadSet (buildPayload req) (toStr "stream") (.bool true)).get (toStr "stream") =
      some (.bool true) := by
  unfold buildPayload spreadSet
  simp only [Json.get]
  exact jlookup_objSet_self _ _ _

theorem invokeAgent_404_eq (tok : Str) (req : ChatRequestM) (hot : Bool)
    (net : Nat → HttpResp) (h : (net 0).status = 404) :
    invokeAgent (some tok) req { hasOnChunk := true, hasOnThinking := hot } net =
      (if resOk (net 1) then
        (Except.ok (interpretParsedResponse (safeJsonParse (net 1).body)),
         [{ accept := toStr "text/event-stream",
            payload := spreadSet (buildPayload req) (toStr "stream") (.bool true) },
          { accept := toStr "application/json", payload := buildPayload req }])
       else
        (Except.error (if (net 1).body ≠ [] then (net 1).body else httpStatusMsg (net 1).status),
         [{ accept := toStr "text/event-stream",
            payload := spreadSet (buildPayload req) (toStr "stream") (.bool true) },
          { accept := toStr "application/json", payload := buildPayload req }])) := by
  simp only [invokeAgent, eq_self_iff_true, if_true, and_true]
  rw [if_pos h]

theorem invokeAgent_400_eq (tok : Str) (req : ChatRequestM) (hot : Bool)
    (net : Nat → HttpResp) (h : (net 0).status = 400) :
    invokeAgent (some tok) req { hasOnChunk := true, hasOnThinking := hot } net =
      (if resOk (net 1) then
        (Except.ok (interpretParsedResponse (safeJsonParse (net 1).body)),
         [{ accept := toStr "text/event-stream",
            payload := spreadSet (buildPayload req) (toStr "stream") (.bool true) },
          { accept := toStr "application/json", payload := buildPayload req }])
       else
        (Except.error (if (if (net 1).body ≠ [] then (net 1).body else (net 0).body) ≠ []
          then (if (net 1).body ≠ [] then (net 1).body else (net 0).body)
          else httpStatusMsg (net 1).status),
         [{ accept := toStr "text/event-stream",
            payload := spreadSet (buildPayload req) (toStr "stream") (.bool true) },
          { accept := toStr "application/json", payload := buildPayload req }])) := by
  simp only [invokeAgent, eq_self_iff_true, if_true, and_true]
  rw [if_neg (by omega : ¬(net 0).status = 404), if_pos h]

/-! Claim C3: streaming 404/400 triggers exactly one non-streaming retry. -/

/-- C3: when a streaming invokeAgent call (Accept: text/event-stream,
stream flag in the payload) receives status 404 or 400, exactly one
further request is issued, with Accept: application/json and a payload
without the stream flag; if that retry has a 2xx status the result is
the ChatResponse interpreted from the retry body, and otherwise the call
fails with an error and no third request is made. -/
theorem c3_streaming_fallback_retry (tok : Str) (req : ChatRequestM) (hot : Bool)
    (net : Nat → HttpResp)
    (hstat : (net 0).status = 404 ∨ (net 0).status = 400) :
    (invokeAgent (some tok) req { hasOnChunk := true, hasOnThinking := hot } net).2 =
      [{ accept := toStr "text/event-stream",
         payload := spreadSet (buildPayload req) (toStr "stream") (.bool true) },
       { accept := toStr "application/json", payload := buildPayload req }] ∧
    ((invokeAgent (some tok) req { hasOnChunk := true, hasOnThinking := hot } net).2.map
      (fun r => r.payload.get (toStr "stream"))) = [some (.bool true), none] ∧
    (resOk (net 1) →
      (invokeAgent (some tok) req { hasOnChunk := true, hasOnThinking := hot } net).1 =
        .ok (interpretParsedResponse (safeJsonParse (net 1).body))) ∧
    (¬ resOk (net 1) →
      ∃ msg, (invokeAgent (some tok) req { hasOnChunk := true, hasOnThinking := hot } net).1 =
        .error msg) := by
  have hflag1 := spreadSet_buildPayload_stream req
  have hflag0 := buildPayload_get_stream req
  rcases hstat with h | h
  · rw [invokeAgent_404_eq tok req hot net h]
    by_cases hr : resOk (net 1)
    · rw [if_pos hr]
      refine ⟨rfl, ?_, fun _ => rfl, fun hc => absurd hr hc⟩
      simp [hflag1, hflag0]
    · rw [if_neg hr]
      refine ⟨rfl, ?_, fun hc => absurd hc hr, fun _ => ⟨_, rfl⟩⟩
      simp [hflag1, hflag0]
  · rw [invokeAgent_400_eq tok req hot net h]
    by_cases hr : resOk (net 1)
    · rw [if_pos hr]
      refine ⟨rfl, ?_, fun _ => rfl, fun hc => absurd hr hc⟩
      simp [hflag1, hflag0]
    · rw [if_neg hr]
      refine ⟨rfl, ?_, fun hc => absurd hc hr, fun _ => ⟨_, rfl⟩⟩
      simp [hflag1, hflag0]

/-- Concrete request for the C3 witness. -/
def c3reqW : ChatRequestM :=
  { message := toStr "hi", history := [], modelId := none, sessionId := none }

/-- Concrete transport for the C3 witness: 404 on the streaming attempt,
200 on the retry. -/
def c3netW : Nat → HttpResp := fun n =>
  if n = 0 then { status := 404, contentType := toStr "", body := toStr "", chunks := [] }
  else { status := 200, contentType := toStr "application/json", body := toStr "", chunks := [] }

/-- Witness for C3 at a concrete transport. -/
theorem c3_streaming_fallback_retry_witness :
    (c3netW 0).status = 404 ∧
    (invokeAgent (some (toStr "t")) c3reqW { hasOnChunk := true, hasOnThinking := false } c3netW).2 =
      [{ accept := toStr "text/event-stream",
         payload := spreadSet (buildPayload c3reqW) (toStr "stream") (.bool true) },
       { accept := toStr "application/json", payload := buildPayload c3reqW }] ∧
    (invokeAgent (some (toStr "t")) c3reqW { hasOnChunk := true, hasOnThinking := false } c3netW).1 =
      .ok (interpretParsedResponse (safeJsonParse (c3netW 1).body)) := by
  have h := c3_streaming_fallback_retry (toStr "t") c3reqW false c3netW (Or.inl rfl)
  exact ⟨rfl, h.1, h.2.2.1 (by decide)⟩

/-- The envelope family of C1: output.message is an object. -/
def msgEnvelope (msgFields : List (Str × Json)) : Json :=
  Json.obj [(toStr "output", Json.obj [(toStr "message", Json.obj msgFields)])]

theorem interpret_msgEnvelope (msgFields : List (Str × Json)) :
    interpretParsedResponse (msgEnvelope msgFields) =
      { reply := (msgObjInterpret (Json.obj msgFields)).1,
        structuredData := (msgObjInterpret (Json.obj msgFields)).2,
        raw := msgEnvelope msgFields } := rfl

theorem msgObjInterpret_answer (msgFields : List (Str × Json)) (a : Str)
    (hans : jlookup msgFields (toStr "answer") = some (.str a))
    (hblank : trim a ≠ []) :
    msgObjInterpret (Json.obj msgFields) =
      (a, some (normalizeStructuredResponse
        (spreadSet (Json.obj msgFields) (toStr "answer") (.str a)))) := by
  unfold msgObjInterpret
  simp only [Json.get, hans, hblank, if_true, ne_eq, not_false_eq_true]

theorem normalize_spread_sources (fs : List (Str × Json)) (a : Str) :
    (normalizeStructuredResponse (spreadSet (Json.obj fs) (toStr "answer") (.str a))).sources =
      (match jlookup fs (toStr "sources") with
        | some (.arr l) => l
        | _ => []) := by
  unfold spreadSet normalizeStructuredResponse
  simp only []
  rw [jlookup_objSet_ne fs (toStr "answer") (toStr "sources") _ (by decide)]

/-! Claim C1: envelope normalization of output.message objects. -/

/-- C1 counterexample: the envelope whose answer is the non-empty but
whitespace-only string consisting of one space.  The claim as stated
promises reply equal to that answer string and a StructuredResponse; the
code instead leaves the placeholder reply and no structured data,
because it requires the answer to be non-blank after trimming. -/
theorem c1_counterexample :
    (toStr " " ≠ ([] : Str)) ∧
    (interpretParsedResponse (msgEnvelope [(toStr "answer", Json.str (toStr " "))])).reply ≠
      toStr " " ∧
    (interpretParsedResponse (msgEnvelope [(toStr "answer", Json.str (toStr " "))])).reply =
      toStr "No response" ∧
    (interpretParsedResponse (msgEnvelope [(toStr "answer", Json.str (toStr " "))])).structuredData =
      none := by
  refine ⟨by decide, ?_, rfl, rfl⟩
  have h : (interpretParsedResponse (msgEnvelope [(toStr "answer", Json.str (toStr " "))])).reply =
      toStr "No response" := rfl
  rw [h]
  decide

/-- C1 (amended): for every envelope whose output.message object carries
an answer string that is non-blank (non-empty after trimming), the
normalizer returns that answer as reply together with a
StructuredResponse whose sources field is always an array: the payload's
sources when that field is an array, the empty array otherwise, never
absent.  In particular the envelope with answer A and empty sources
yields reply A and an empty (not absent) sources array. -/
theorem c1_envelope_normalizer (msgFields : List (Str × Json)) (a : Str)
    (hans : jlookup msgFields (toStr "answer") = some (.str a))
    (hblank : trim a ≠ []) :
    (interpretParsedResponse (msgEnvelope msgFields)).reply = a ∧
    ((interpretParsedResponse (msgEnvelope msgFields)).structuredData.map
      (fun sd => sd.sources)) =
      some (match jlookup msgFields (toStr "sources") with
        | some (.arr l) => l
        | _ => []) ∧
    (interpretParsedResponse (msgEnvelope
      [(toStr "answer", Json.str (toStr "A")), (toStr "sources", Json.arr [])])).reply =
      toStr "A" ∧
    ((interpretParsedResponse (msgEnvelope
      [(toStr "answer", Json.str (toStr "A")), (toStr "sources", Json.arr [])])).structuredData.map
      (fun sd => sd.sources)) = some [] := by
  rw [interpret_msgEnvelope, msgObjInterpret_answer msgFields a hans hblank]
  refine ⟨rfl, ?_, rfl, rfl⟩
  have hm : Option.map (fun sd => StructuredResponse.sources sd)
      (some (normalizeStructuredResponse
        (spreadSet (Json.obj msgFields) (toStr "answer") (Json.str a)))) =
      some ((normalizeStructuredResponse
        (spreadSet (Json.obj msgFields) (toStr "answer") (Json.str a))).sources) := rfl
  rw [hm, normalize_spread_sources]

/-- Witness for C1 at the concrete envelope of the claim. -/
theorem c1_envelope_normalizer_witness :
    (jlookup [(toStr "answer", Json.str (toStr "A")), (toStr "sources", Json.arr [])]
      (toStr "answer") = some (.str (toStr "A"))) ∧
    trim (toStr "A") ≠ [] ∧
    (interpretParsedResponse (msgEnvelope
      [(toStr "answer", Json.str (toStr "A")), (toStr "sources", Json.arr [])])).reply =
      toStr "A" := by
  refine ⟨rfl, by decide, ?_⟩
  exact (c1_envelope_normalizer
    [(toStr "answer", Json.str (toStr "A")), (toStr "sources", Json.arr [])]
    (toStr "A") rfl (by decide)).1

/-- Subvalue relation on JSON values: w occurs inside j (reflexively,
through object fields and array elements). -/
inductive SubJson : Json → Json → Prop where
  | refl (j : Json) : SubJson j j
  | field {w v : Json} {fs : List (Str × Json)} {k : Str} :
      (k, v) ∈ fs → SubJson w v → SubJson w (.obj fs)
  | elem {w v : Json} {l : List Json} : v ∈ l → SubJson w v → SubJson w (.arr l)

theorem mem_of_jlookup {fs : List (Str × Json)} {k : Str} {v : Json}
    (h : jlookup fs k = some v) : (k, v) ∈ fs := by
  induction fs with
  | nil => simp [jlookup] at h
  | cons p rest ih =>
    obtain ⟨k1, v1⟩ := p
    by_cases hk : k1 = k
    · subst hk
      simp [jlookup] at h
      rw [h]
      exact List.mem_cons_self _ _
    · simp [jlookup, hk] at h
      exact List.mem_cons_of_mem _ (ih h)

theorem SubJson.of_get {j v : Json} {k : Str} (h : j.get k = some v) : SubJson v j := by
  cases j with
  | obj fs => exact SubJson.field (mem_of_jlookup h) (SubJson.refl v)
  | null => simp [Json.get] at h
  | bool b => simp [Json.get] at h
  | num lex => simp [Json.get] at h
  | str s => simp [Json.get] at h
  | arr l => simp [Json.get] at h

theorem SubJson.trans {w v j : Json} (h1 : SubJson w v) (h2 : SubJson v j) : SubJson w j := by
  induction h2 with
  | refl => exact h1
  | field hmem _ ih => exact SubJson.field hmem ih
  | elem hmem _ ih => exact SubJson.elem hmem ih

/-- The shapes a reply run through one of the object-branch helpers can
take, relative to the object m it examined. -/
def MShape (m : Json) (r : Str) : Prop :=
  r = toStr "No response" ∨
  (∃ v, SubJson v m ∧ r = jsonStringify v) ∨
  (∃ v, SubJson v m ∧ v = Json.str r)

/-- The degradation invariant of the Envelope Normalizer: the reply is
the placeholder, the serialization of a subvalue of the payload, a
string subvalue of the payload itself, or a string found inside the
secondary decode of a double-encoded response string. -/
def ReplyShape (parsed : Json) (r : Str) : Prop :=
  r = toStr "No response" ∨
  (∃ v, SubJson v parsed ∧ r = jsonStringify v) ∨
  (∃ v, SubJson v parsed ∧ v = Json.str r) ∨
  (∃ s mj v, SubJson (Json.str s) parsed ∧ jsonParse s = some mj ∧ SubJson v mj ∧ v = Json.str r)

theorem ReplyShape.lift {parsed m : Json} {r : Str} (hsub : SubJson m parsed)
    (h : MShape m r) : ReplyShape parsed r := by
  rcases h with h | ⟨v, hv, hr⟩ | ⟨v, hv, hr⟩
  · exact Or.inl h
  · exact Or.inr (Or.inl ⟨v, hv.trans hsub, hr⟩)
  · exact Or.inr (Or.inr (Or.inl ⟨v, hv.trans hsub, hr⟩))

theorem normalize_answer_sub (data : Json) (a : Str)
    (h : (normalizeStructuredResponse data).answer = some a) :
    SubJson (Json.str a) data := by
  unfold normalizeStructuredResponse at h
  simp only [] at h
  split at h
  · rename_i x heq
    split at h
    · cases h
      cases data with
      | obj fs => exact SubJson.field (mem_of_jlookup heq) (SubJson.refl _)
      | null => simp [jlookup] at heq
      | bool b => simp [jlookup] at heq
      | num lex => simp [jlookup] at heq
      | str s => simp [jlookup] at heq
      | arr l => simp [jlookup] at heq
    · cases h
  · cases h

theorem msgObjInterpret_shape (m : Json) : MShape m (msgObjInterpret m).1 := by
  unfold msgObjInterpret
  simp only []
  split
  · rename_i a heq
    split
    · exact Or.inr (Or.inr ⟨Json.str a, SubJson.of_get heq, rfl⟩)
    · split
      · rename_i r heq2
        exact Or.inr (Or.inr ⟨Json.str r, SubJson.of_get heq2, rfl⟩)
      · split
        · split
          · rename_i a2 hnorm
            exact Or.inr (Or.inr ⟨Json.str a2, normalize_answer_sub m a2 hnorm, rfl⟩)
          · exact Or.inl rfl
        · split
          · rename_i r heq2
            exact Or.inr (Or.inr ⟨Json.str r, SubJson.of_get heq2, rfl⟩)
          · exact Or.inr (Or.inl ⟨m, SubJson.refl m, rfl⟩)
  · split
    · rename_i r heq2
      exact Or.inr (Or.inr ⟨Json.str r, SubJson.of_get heq2, rfl⟩)
    · split
      · split
        · rename_i a2 hnorm
          exact Or.inr (Or.inr ⟨Json.str a2, normalize_answer_sub m a2 hnorm, rfl⟩)
        · exact Or.inl rfl
      · split
        · rename_i r heq2
          exact Or.inr (Or.inr ⟨Json.str r, SubJson.of_get heq2, rfl⟩)
        · exact Or.inr (Or.inl ⟨m, SubJson.refl m, rfl⟩)

theorem respObjInterpret_shape (r : Json) : MShape r (respObjInterpret r).1 := by
  unfold respObjInterpret
  simp only []
  split
  · rename_i a heq
    split
    · exact Or.inr (Or.inr ⟨Json.str a, SubJson.of_get heq, rfl⟩)
    · split
      · split
        · rename_i a2 hnorm
          exact Or.inr (Or.inr ⟨Json.str a2, normalize_answer_sub r a2 hnorm, rfl⟩)
        · exact Or.inl rfl
      · exact Or.inr (Or.inl ⟨r, SubJson.refl r, rfl⟩)
  · split
    · split
      · rename_i a2 hnorm
        exact Or.inr (Or.inr ⟨Json.str a2, normalize_answer_sub r a2 hnorm, rfl⟩)
      · exact Or.inl rfl
    · exact Or.inr (Or.inl ⟨r, SubJson.refl r, rfl⟩)

theorem respStrInterpret_shape (s : Str) :
    (respStrInterpret s).1 = s ∨
    (∃ mj v, jsonParse s = some mj ∧ SubJson v mj ∧ v = Json.str (respStrInterpret s).1) := by
  unfold respStrInterpret
  simp only []
  split
  · rename_i mj heq
    split
    · split
      · rename_i a hnorm
        exact Or.inr ⟨mj, Json.str a, heq, normalize_answer_sub mj a hnorm, rfl⟩
      · exact Or.inl rfl
    · exact Or.inl rfl
  · exact Or.inl rfl


theorem interpret_raw (parsed : Json) : (interpretParsedResponse parsed).raw = parsed := by
  unfold interpretParsedResponse
  dsimp only []
  repeat first
    | rfl
    | split

/-! Claim C6: the Envelope Normalizer always degrades to a string reply. -/

/-- C6: interpretParsedResponse is total (a plain function in this
embedding) and for every decoded payload returns a ChatResponse carrying
the payload as raw and a reply that is always a string: an
answer/raw/response/message string found inside the payload, a JSON
serialization of (a subvalue of) the payload, a string recovered from a
double-encoded response, or the literal No response placeholder. -/
theorem c6_interpret_reply_degrades (parsed : Json) :
    (interpretParsedResponse parsed).raw = parsed ∧
    ReplyShape parsed (interpretParsedResponse parsed).reply := by
  refine ⟨interpret_raw parsed, ?_⟩
  unfold interpretParsedResponse
  dsimp only []
  split
  · split
    · rename_i hcond
      cases hout : parsed.get (toStr "output") with
      | none => rw [hout] at hcond; simp at hcond
      | some o =>
        have hsubo : SubJson o parsed := SubJson.of_get hout
        rw [hout] at hcond
        cases hmsg : o.get (toStr "message") with
        | none =>
          exfalso
          simp only [Bool.and_eq_true, Json.hasKey, hmsg] at hcond
          simp at hcond
        | some mv =>
          have hsubm : SubJson mv parsed := (SubJson.of_get hmsg).trans hsubo
          dsimp only []
          rw [hmsg]
          dsimp only [Option.getD_some]
          split
          · next s => exact Or.inr (Or.inr (Or.inl ⟨Json.str s, hsubm, rfl⟩))
          · split
            · exact ReplyShape.lift hsubm (msgObjInterpret_shape mv)
            · exact Or.inl rfl
    · split
      · rename_i s heq
        have hsubs : SubJson (Json.str s) parsed := SubJson.of_get heq
        rcases respStrInterpret_shape s with h | ⟨mj, v, hparse, hsubv, hv⟩
        · dsimp only []
          rw [h]
          exact Or.inr (Or.inr (Or.inl ⟨Json.str s, hsubs, rfl⟩))
        · exact Or.inr (Or.inr (Or.inr ⟨s, mj, v, hsubs, hparse, hsubv, hv⟩))
      · rename_i r hnotstr heq
        have hsubr : SubJson r parsed := SubJson.of_get heq
        split
        · exact ReplyShape.lift hsubr (respObjInterpret_shape r)
        · exact Or.inr (Or.inl ⟨parsed, SubJson.refl parsed, rfl⟩)
      · exact Or.inr (Or.inl ⟨parsed, SubJson.refl parsed, rfl⟩)
  · split
    · rename_i s hneg
      exact Or.inr (Or.inr (Or.inl ⟨Json.str s, SubJson.refl _, rfl⟩))
    · exact Or.inl rfl

/-- Whether a recorded callback invocation is an onThinking call carrying
done = true. -/
def isDoneCall : CbCall → Bool
  | .onThinking _ _ true => true
  | _ => false

/-- Number of done notifications in a callback trace. -/
def doneCount (trace : List CbCall) : Nat := trace.countP isDoneCall

theorem doneCount_append (t1 t2 : List CbCall) :
    doneCount (t1 ++ t2) = doneCount t1 + doneCount t2 :=
  List.countP_append _ _ _

/-- The step invariant of the thinking-done accounting: from an
unfinalized state, a step that does not throw keeps the state
unfinalized and adds no done notification; a throwing step adds at most
one (exactly one for an error event, none for the TypeError of the in
operator on a truthy non-object event). -/
def DoneStep (st : CsState) (r : CsState × Option Str) : Prop :=
  match r with
  | (st2, none) => st2.thinkingFinalized = false ∧ doneCount st2.trace = doneCount st.trace
  | (st2, some _) => doneCount st2.trace ≤ doneCount st.trace + 1

theorem doneStep_chain (st st1 : CsState) (r : CsState × Option Str)
    (h1 : st1.thinkingFinalized = false ∧ doneCount st1.trace = doneCount st.trace)
    (h2 : DoneStep st1 r) : DoneStep st r := by
  rcases r with ⟨st2, e⟩
  cases e with
  | none => exact ⟨h2.1, h2.2.trans h1.2⟩
  | some e =>
    have h2' : doneCount st2.trace ≤ doneCount st1.trace + 1 := h2
    have h1' := h1.2
    show doneCount st2.trace ≤ doneCount st.trace + 1
    omega

theorem notifyThinkingDone_spec (opts : CsOptions) (st : CsState) (ft : Option Str)
    (hT : opts.hasOnThinking = true) (hf : st.thinkingFinalized = false) :
    doneCount (notifyThinkingDone opts st ft).trace = doneCount st.trace + 1 ∧
    (notifyThinkingDone opts st ft).thinkingFinalized = true := by
  unfold notifyThinkingDone
  rw [if_neg (by simp [hf])]
  have htr : ∀ (c : CbCall), isDoneCall c = true →
      doneCount (if opts.hasOnThinking = true then st.trace ++ [c] else st.trace) =
        doneCount st.trace + 1 := by
    intro c hc
    rw [if_pos hT, doneCount_append]
    simp [doneCount, List.countP, List.countP.go, hc]
  cases ft with
  | none => exact ⟨htr (CbCall.onThinking none none true) rfl, rfl⟩
  | some t =>
    dsimp only []
    refine ⟨?_, rfl⟩
    rw [if_pos hT, doneCount_append]
    split <;> simp [doneCount, List.countP, List.countP.go, isDoneCall]

theorem processFrame_done (opts : CsOptions) (st : CsState) (f : Str)
    (hT : opts.hasOnThinking = true) (hf : st.thinkingFinalized = false) :
    DoneStep st (processFrame opts st f) := by
  unfold processFrame
  dsimp only []
  split
  · exact ⟨hf, rfl⟩
  · split
    · exact ⟨hf, rfl⟩
    · split
      · exact Nat.le_succ _
      · exact ⟨hf, rfl⟩
      · exact ⟨hf, rfl⟩
      · refine ⟨hf, ?_⟩
        show doneCount (st.trace ++ _) = doneCount st.trace
        rw [doneCount_append]
        simp [doneCount, List.countP, List.countP.go, isDoneCall]
      · refine ⟨hf, ?_⟩
        show doneCount (st.trace ++ _) = doneCount st.trace
        rw [doneCount_append]
        split <;> simp [doneCount, List.countP, List.countP.go, isDoneCall]
      · exact ⟨hf, rfl⟩
      · exact Nat.le_of_eq (notifyThinkingDone_spec opts st none hT hf).1

theorem consumeFrames_done (opts : CsOptions) (hT : opts.hasOnThinking = true) :
    ∀ (fs : List Str) (st : CsState), st.thinkingFinalized = false →
    DoneStep st (consumeFrames opts fs st) := by
  intro fs
  induction fs with
  | nil => intro st hf; exact ⟨hf, rfl⟩
  | cons f rest ih =>
    intro st hf
    have hpf := processFrame_done opts st f hT hf
    unfold consumeFrames
    cases hp : processFrame opts st f with
    | mk st2 err =>
      rw [hp] at hpf
      cases err with
      | some e => exact hpf
      | none =>
        dsimp only []
        exact doneStep_chain st st2 _ ⟨hpf.1, hpf.2⟩ (ih st2 hpf.1)

theorem consumeBuf_done (opts : CsOptions) (hT : opts.hasOnThinking = true)
    (st : CsState) (hf : st.thinkingFinalized = false) :
    DoneStep st (consumeBuf opts st) := by
  unfold consumeBuf
  exact consumeFrames_done opts hT _ _ hf

theorem readLoop_done (opts : CsOptions) (hT : opts.hasOnThinking = true) :
    ∀ (chunks : List Str) (st : CsState), st.thinkingFinalized = false →
    DoneStep st (readLoop opts chunks st) := by
  intro chunks
  induction chunks with
  | nil => intro st hf; exact ⟨hf, rfl⟩
  | cons ch rest ih =>
    intro st hf
    have hcb := consumeBuf_done opts hT { st with buffer := st.buffer ++ ch } hf
    unfold readLoop
    cases hp : consumeBuf opts { st with buffer := st.buffer ++ ch } with
    | mk st2 err =>
      rw [hp] at hcb
      cases err with
      | some e => exact hcb
      | none =>
        dsimp only []
        exact doneStep_chain st st2 _ ⟨hcb.1, hcb.2⟩ (ih st2 hcb.1)

theorem finalizeStream_done (opts : CsOptions) (st2 : CsState)
    (hT : opts.hasOnThinking = true) (hf : st2.thinkingFinalized = false) :
    doneCount (finalizeStream opts st2).2 = doneCount st2.trace + 1 := by
  unfold finalizeStream
  split
  · dsimp only []
    rw [if_pos (by rw [hT] : opts.hasOnThinking = true)]
    exact (notifyThinkingDone_spec opts st2 _ hT hf).1
  · split
    · dsimp only []
      exact (notifyThinkingDone_spec opts st2 _ hT hf).1
    · dsimp only []
      exact (notifyThinkingDone_spec opts st2 _ hT hf).1

/-! Claim C7: the terminal thinking notification. -/

/-- C7 counterexample: the frame data: 42 decodes to the truthy number
42, on which the consume loop's (done in event) test throws an uncaught
TypeError: the stream rejects with zero done = true notifications even
though an onThinking callback was supplied, refuting the claimed
exactly-once guarantee. -/
theorem c7_counterexample :
    (consumeStreamResponse { hasOnChunk := false, hasOnThinking := true }
      [toStr "data: 42\n\n"]).1 = .error jsInTypeErrMsg ∧
    doneCount (consumeStreamResponse { hasOnChunk := false, hasOnThinking := true }
      [toStr "data: 42\n\n"]).2 = 0 := by
  constructor
  · rfl
  · rfl

/-- C7 (amended): with an onThinking callback supplied, the consumer
never delivers two done notifications: every callback trace carries at
most one done = true call; whenever a ChatResponse is produced (normal
end, empty streams, thinking events or none) it carries exactly one;
an error event still notifies done exactly once before throwing (shown
on a concrete error-event stream), while the TypeError thrown by a
truthy non-object event aborts with none. -/
theorem c7_thinking_done_at_most_once (opts : CsOptions) (chunks : List Str)
    (hT : opts.hasOnThinking = true) :
    (doneCount (consumeStreamResponse opts chunks).2 ≤ 1 ∧
     ∀ cr : ChatResponse, (consumeStreamResponse opts chunks).1 = .ok cr →
       doneCount (consumeStreamResponse opts chunks).2 = 1) ∧
    doneCount (consumeStreamResponse { hasOnChunk := false, hasOnThinking := true }
      [toStr "data: \x7b\"type\":\"error\",\"message\":\"boom\"\x7d\n\n"]).2 = 1 := by
  refine ⟨?_, by decide⟩
  unfold consumeStreamResponse
  have hrl := readLoop_done opts hT chunks initCsState rfl
  cases hp : readLoop opts chunks initCsState with
  | mk st err =>
    rw [hp] at hrl
    cases err with
    | some e =>
      dsimp only []
      constructor
      · have h2 : doneCount st.trace ≤ doneCount initCsState.trace + 1 := hrl
        simpa [initCsState, doneCount, List.countP, List.countP.go] using h2
      · intro cr hcr
        exact absurd hcr (by simp)
    | none =>
      dsimp only []
      have hcount0 : doneCount st.trace = 0 := by
        have := hrl.2
        simpa [initCsState, doneCount, List.countP, List.countP.go] using this
      by_cases hb : trim st.buffer ≠ []
      · rw [if_pos hb]
        have hcb := consumeBuf_done opts hT { st with buffer := st.buffer ++ toStr "\n\n" } hrl.1
        cases hc : consumeBuf opts { st with buffer := st.buffer ++ toStr "\n\n" } with
        | mk st2 err2 =>
          rw [hc] at hcb
          cases err2 with
          | some e2 =>
            dsimp only []
            constructor
            · have h2 : doneCount st2.trace ≤ doneCount st.trace + 1 := hcb
              omega
            · intro cr hcr
              exact absurd hcr (by simp)
          | none =>
            dsimp only []
            have h2 : doneCount st2.trace = doneCount st.trace := hcb.2
            constructor
            · rw [finalizeStream_done opts st2 hT hcb.1]
              omega
            · intro cr _
              rw [finalizeStream_done opts st2 hT hcb.1]
              omega
      · rw [if_neg hb]
        dsimp only []
        constructor
        · rw [finalizeStream_done opts st hT hrl.1]
          omega
        · intro cr _
          rw [finalizeStream_done opts st hT hrl.1]
          omega

/-- Witness for C7 on a concrete stream carrying one thinking event and
the terminator. -/
theorem c7_thinking_done_at_most_once_witness :
    ({ hasOnChunk := true, hasOnThinking := true } : CsOptions).hasOnThinking = true ∧
    ((doneCount (consumeStreamResponse { hasOnChunk := true, hasOnThinking := true }
        [toStr "data: \x7b\"type\":\"thinking\",\"content\":\"T\"\x7d\n\ndata: [DONE]\n\n"]).2 ≤ 1 ∧
      ∀ cr : ChatResponse, (consumeStreamResponse { hasOnChunk := true, hasOnThinking := true }
          [toStr "data: \x7b\"type\":\"thinking\",\"content\":\"T\"\x7d\n\ndata: [DONE]\n\n"]).1 =
            .ok cr →
        doneCount (consumeStreamResponse { hasOnChunk := true, hasOnThinking := true }
          [toStr "data: \x7b\"type\":\"thinking\",\"content\":\"T\"\x7d\n\ndata: [DONE]\n\n"]).2 = 1) ∧
     doneCount (consumeStreamResponse { hasOnChunk := false, hasOnThinking := true }
       [toStr "data: \x7b\"type\":\"error\",\"message\":\"boom\"\x7d\n\n"]).2 = 1) :=
  ⟨rfl, c7_thinking_done_at_most_once { hasOnChunk := true, hasOnThinking := true } _ rfl⟩

theorem splitChar_no_sep (sep : Char) (s : Str) (h : sep ∉ s) : splitChar sep s = [s] := by
  induction s with
  | nil => rfl
  | cons c rest ih =>
    have hc : c ≠ sep := by
      intro hc
      exact h (hc ▸ List.mem_cons_self _ _)
    have hr : sep ∉ rest := fun hm => h (List.mem_cons_of_mem _ hm)
    unfold splitChar
    rw [ih hr]
    simp [hc]

theorem trimR_fixed_head (p : Str) (hp : trimR p = p) (hne : p ≠ []) :
    ∃ c t, p.reverse = c :: t ∧ isWsChar c = false := by
  cases hrev : p.reverse with
  | nil =>
    exfalso
    apply hne
    have := congrArg List.reverse hrev
    simpa using this
  | cons c t =>
    refine ⟨c, t, rfl, ?_⟩
    by_contra hws
    have hws2 : isWsChar c = true := by simpa using hws
    have h1 : trimR p = (t.dropWhile isWsChar).reverse := by
      unfold trimR
      rw [hrev]
      simp [List.dropWhile_cons, hws2]
    have hlen : (trimR p).length ≤ t.length := by
      rw [h1]
      simpa using (List.dropWhile_suffix isWsChar (l := t)).length_le
    rw [hp] at hlen
    have hlp : p.length = t.length + 1 := by
      have := congrArg List.length hrev
      simpa using this
    omega

theorem trimR_append_right (a p : Str) (hp : trimR p = p) (hne : p ≠ []) :
    trimR (a ++ p) = a ++ p := by
  obtain ⟨c, t, hrev, hcws⟩ := trimR_fixed_head p hp hne
  have hp2 : p = (c :: t).reverse := by
    rw [← hrev, List.reverse_reverse]
  unfold trimR
  rw [List.reverse_append, hrev]
  rw [show (c :: t) ++ a.reverse = c :: (t ++ a.reverse) from rfl]
  rw [List.dropWhile_cons]
  simp only [hcws]
  rw [hp2]
  simp

theorem dropWhile_length_eq (pred : Char → Bool) (l : Str)
    (h : (l.dropWhile pred).length = l.length) : l.dropWhile pred = l :=
  (List.dropWhile_suffix pred).eq_of_length h

theorem trim_fixed_parts (p : Str) (h : trim p = p) : trimR p = p ∧ trimL p = p := by
  have h1 : (trimL (trimR p)).length ≤ (trimR p).length :=
    (List.dropWhile_suffix isWsChar).length_le
  have h2 : (trimR p).length ≤ p.length := by
    unfold trimR
    simpa using (List.dropWhile_suffix isWsChar (l := p.reverse)).length_le
  have hlen : (trimL (trimR p)).length = p.length := by
    unfold trim at h
    rw [h]
  have hRlen : (trimR p).length = p.length := by omega
  have hR : trimR p = p := by
    unfold trimR at hRlen ⊢
    have : (p.reverse.dropWhile isWsChar).length = p.reverse.length := by
      simpa using hRlen
    rw [dropWhile_length_eq _ _ this]
    simp
  refine ⟨hR, ?_⟩
  unfold trim at h
  rw [hR] at h
  exact h

theorem trimL_cons_ws (p : Str) (hL : trimL p = p) : trimL (' ' :: p) = p := by
  unfold trimL at hL ⊢
  rw [List.dropWhile_cons]
  simp only [show isWsChar ' ' = true from rfl, if_true]
  exact hL

theorem trim_data_line (p : Str) (hR : trimR p = p) (hne : p ≠ []) :
    trim (toStr "data: " ++ p) = toStr "data: " ++ p := by
  unfold trim
  rw [trimR_append_right _ p hR hne]
  unfold trimL
  rw [show toStr "data: " ++ p = 'd' :: (toStr "ata: " ++ p) from rfl]
  rw [List.dropWhile_cons]
  simp [show isWsChar 'd' = false from rfl]

/-! Claim C2: SSE frame decoding policy and the two-frame example. -/

/-- C2: for a frame consisting of one data: line carrying a trimmed,
newline-free, non-empty payload, the Frame Parser yields the terminator
marker when the payload is the literal token [DONE], the decoded JSON
value when the payload decodes, and a synthetic chunk event carrying the
raw payload when decoding fails; and the byte stream consisting of a
chunk frame with text Hi followed by a [DONE] frame yields exactly a
chunk event then the terminator, with nothing after it. -/
theorem c2_sse_frame_decoding :
    (∀ p : Str, '\n' ∉ p → trim p = p → p ≠ [] →
      parseSseEvent (toStr "data: " ++ p) =
        some (if p = toStr "[DONE]" then Json.obj [(toStr "done", Json.bool true)]
              else match jsonParse p with
                | some v => v
                | none => Json.obj [(toStr "type", Json.str (toStr "chunk")),
                                    (toStr "content", Json.str p)])) ∧
    sseStreamEvents (toStr "data: \x7b\"type\":\"chunk\",\"content\":\"Hi\"\x7d\n\ndata: [DONE]\n\n") =
      [.chunk (toStr "Hi"), .terminator] := by
  constructor
  · intro p hn htrim hne
    obtain ⟨hR, hL⟩ := trim_fixed_parts p htrim
    have hnodata : '\n' ∉ toStr "data: " ++ p := by
      intro hmem
      rcases List.mem_append.mp hmem with hmem | hmem
      · simp [toStr] at hmem
      · exact hn hmem
    unfold parseSseEvent
    rw [splitChar_no_sep '\n' _ hnodata]
    dsimp only []
    rw [show List.map trim [toStr "data: " ++ p] = [trim (toStr "data: " ++ p)] from rfl]
    rw [trim_data_line p hR hne]
    rw [show List.filter (fun l => (toStr "data:").isPrefixOf l) [toStr "data: " ++ p] =
      [toStr "data: " ++ p] from by simp [List.filter, toStr, List.isPrefixOf]]
    rw [show List.map (fun l => trim (l.drop 5)) [toStr "data: " ++ p] =
      [trim (' ' :: p)] from rfl]
    have htsp : trim (' ' :: p) = p := by
      show trimL (trimR ([' '] ++ p)) = p
      rw [trimR_append_right [' '] p hR hne]
      exact trimL_cons_ws p hL
    rw [htsp]
    rw [if_neg (by simp : ¬([p] : List Str) = [])]
    rw [show joinSep ['\n'] [p] = p from rfl]
    rw [if_neg hne]
    by_cases hd : p = toStr "[DONE]"
    · rw [if_pos hd, if_pos hd]
    · rw [if_neg hd, if_neg hd]
      cases jsonParse p <;> rfl
  · rfl

/-- Witness for C2 at the plain-text payload ping (not JSON, not the
terminator): it decodes as a chunk carrying the raw payload. -/
theorem c2_sse_frame_decoding_witness :
    ('\n' ∉ toStr "ping") ∧ trim (toStr "ping") = toStr "ping" ∧ toStr "ping" ≠ [] ∧
    parseSseEvent (toStr "data: " ++ toStr "ping") =
      some (if toStr "ping" = toStr "[DONE]" then Json.obj [(toStr "done", Json.bool true)]
            else match jsonParse (toStr "ping") with
              | some v => v
              | none => Json.obj [(toStr "type", Json.str (toStr "chunk")),
                                  (toStr "content", Json.str (toStr "ping"))]) := by
  refine ⟨by decide, by decide, by decide, ?_⟩
  exact c2_sse_frame_decoding.1 (toStr "ping") (by decide) (by decide) (by decide)

/-- Occurrences of the frame delimiter propagate from a tail to the whole
string: if a string has no two-newline occurrence, neither has its tail. -/
theorem hasSub_cons_false (needle : Str) (c : Char) (rest : Str)
    (h : hasSub needle (c :: rest) = false) : hasSub needle rest = false := by
  unfold hasSub at h ⊢
  unfold findSub at h
  by_cases hp : needle.isPrefixOf (c :: rest) = true
  · rw [if_pos hp] at h
    exact absurd h (by simp)
  · rw [if_neg hp] at h
    cases hf : findSub needle rest with
    | none => rfl
    | some p =>
      rw [hf] at h
      simp at h

/-- A successful delimiter search decomposes the haystack into the part
before, the delimiter, and the part after. -/
theorem findSub_delim_decomp : ∀ (hay a b : Str),
    findSub (toStr "\n\n") hay = some (a, b) → hay = a ++ toStr "\n\n" ++ b := by
  intro hay
  induction hay with
  | nil =>
    intro a b h
    exact absurd h (by simp [findSub, toStr, List.isPrefixOf])
  | cons c rest ih =>
    intro a b h
    unfold findSub at h
    by_cases hp : (toStr "\n\n").isPrefixOf (c :: rest) = true
    · rw [if_pos hp] at h
      injection h with h1
      have ha : ([] : Str) = a := congrArg Prod.fst h1
      have hb : (c :: rest).drop (toStr "\n\n").length = b := congrArg Prod.snd h1
      subst ha
      subst hb
      obtain ⟨t, ht⟩ := List.isPrefixOf_iff_prefix.mp hp
      have ht' : '\n' :: '\n' :: t = c :: rest := ht
      injection ht' with hc hrest
      subst hc
      subst hrest
      rfl
    · rw [if_neg hp] at h
      cases hf : findSub (toStr "\n\n") rest with
      | none =>
        rw [hf] at h
        simp at h
      | some p =>
        obtain ⟨p1, p2⟩ := p
        rw [hf] at h
        injection h with h1
        have ha : c :: p1 = a := congrArg Prod.fst h1
        have hb : p2 = b := congrArg Prod.snd h1
        subst ha
        subst hb
        have := ih p1 p2 hf
        rw [show c :: rest = c :: (p1 ++ toStr "\n\n" ++ p2) from by rw [← this]]
        rfl

/-- On a delimiter-free buffer the frame extractor extracts nothing and
keeps the whole buffer as remainder, whatever the fuel. -/
theorem framesOfBufferF_no_delim (fuel : Nat) (b : Str)
    (h : findSub (toStr "\n\n") b = none) : framesOfBufferF fuel b = ([], b) := by
  cases fuel with
  | zero => rfl
  | succ f =>
    unfold framesOfBufferF
    rw [h]

/-- With fuel above the buffer length, the remainder left by the frame
extractor never contains the delimiter. -/
theorem framesOfBufferF_rem_none : ∀ (fuel : Nat) (b : Str), b.length < fuel →
    findSub (toStr "\n\n") (framesOfBufferF fuel b).2 = none := by
  intro fuel
  induction fuel with
  | zero => intro b h; exact absurd h (by omega)
  | succ f ih =>
    intro b h
    unfold framesOfBufferF
    cases hf : findSub (toStr "\n\n") b with
    | none => exact hf
    | some p =>
      obtain ⟨fr, rest⟩ := p
      dsimp only []
      apply ih
      have hd := findSub_delim_decomp b fr rest hf
      have hlen : b.length = fr.length + 2 + rest.length := by
        rw [hd]
        simp [toStr]
        omega
      omega

/-- The remainder of the consume loop's frame split never contains the
delimiter. -/
theorem framesOfBuffer_rem_none (b : Str) :
    findSub (toStr "\n\n") (framesOfBuffer b).2 = none :=
  framesOfBufferF_rem_none (b.length + 1) b (Nat.lt_succ_self _)

/-- Trailing newline is removed by trimEnd. -/
theorem trimR_append_nl (l : Str) : trimR (l ++ ['\n']) = trimR l := by
  unfold trimR
  rw [List.reverse_append]
  simp [List.dropWhile_cons, show isWsChar '\n' = true from rfl]

/-- Appending a delimiter to a delimiter-free string creates exactly one
occurrence, splitting it as the original string (up to one trailing
newline claimed by the delimiter) plus an all-whitespace remainder. -/
theorem findSub_append_delim : ∀ (s : Str), hasSub (toStr "\n\n") s = false →
    ∃ f rest, findSub (toStr "\n\n") (s ++ toStr "\n\n") = some (f, rest) ∧
      (rest = [] ∨ rest = ['\n']) ∧ (s = f ∨ s = f ++ ['\n']) := by
  intro s
  induction s with
  | nil => intro h; exact ⟨[], [], rfl, Or.inl rfl, Or.inl rfl⟩
  | cons c s2 ih =>
    intro h
    have h2 : hasSub (toStr "\n\n") s2 = false := hasSub_cons_false _ c s2 h
    by_cases hpre : (toStr "\n\n").isPrefixOf (c :: (s2 ++ toStr "\n\n")) = true
    · obtain ⟨t, ht⟩ := List.isPrefixOf_iff_prefix.mp hpre
      have ht' : '\n' :: '\n' :: t = c :: (s2 ++ toStr "\n\n") := ht
      injection ht' with hc hrest
      subst hc
      cases s2 with
      | nil =>
        exact ⟨[], ['\n'], rfl, Or.inr rfl, Or.inr rfl⟩
      | cons c2 s3 =>
        exfalso
        have hrest' : '\n' :: t = c2 :: (s3 ++ toStr "\n\n") := hrest
        injection hrest' with hc2 _
        subst hc2
        have hT : hasSub (toStr "\n\n") ('\n' :: '\n' :: s3) = true := by
          unfold hasSub findSub
          rw [if_pos (show List.isPrefixOf (toStr "\n\n") ('\n' :: '\n' :: s3) = true from
            List.isPrefixOf_iff_prefix.mpr ⟨s3, rfl⟩)]
          rfl
        rw [hT] at h
        exact Bool.noConfusion h
    · obtain ⟨f, rest, hf, hr1, hr2⟩ := ih h2
      refine ⟨c :: f, rest, ?_, hr1, ?_⟩
      · show findSub (toStr "\n\n") (c :: (s2 ++ toStr "\n\n")) = _
        unfold findSub
        rw [if_neg hpre, hf]
        rfl
      · rcases hr2 with h3 | h3
        · exact Or.inl (by rw [h3])
        · exact Or.inr (by rw [h3]; rfl)

/-- The synthetic end-of-stream flush of a delimiter-free buffer yields
exactly one frame, with the same trimmed content as the buffer, and an
all-whitespace remainder. -/
theorem framesOfBuffer_append_delim (s : Str) (h : hasSub (toStr "\n\n") s = false) :
    ∃ f rest, framesOfBuffer (s ++ toStr "\n\n") = ([f], rest) ∧ trim rest = [] ∧
      trim f = trim s := by
  obtain ⟨f, rest, hf, hr1, hr2⟩ := findSub_append_delim s h
  have hrn : findSub (toStr "\n\n") rest = none := by
    rcases hr1 with h1 | h1 <;> subst h1 <;> rfl
  refine ⟨f, rest, ?_, ?_, ?_⟩
  · unfold framesOfBuffer
    unfold framesOfBufferF
    rw [hf]
    dsimp only []
    rw [framesOfBufferF_no_delim _ _ hrn]
  · rcases hr1 with h1 | h1 <;> subst h1 <;> rfl
  · rcases hr2 with h2 | h2
    · rw [h2]
    · rw [h2]
      show trim f = trim (f ++ ['\n'])
      unfold trim
      rw [trimR_append_nl]

/-- The terminal thinking notification never touches the SSE buffer. -/
theorem notifyThinkingDone_buffer (opts : CsOptions) (st : CsState) (ft : Option Str) :
    (notifyThinkingDone opts st ft).buffer = st.buffer := by
  unfold notifyThinkingDone
  split <;> rfl

/-- Processing one frame never touches the SSE buffer. -/
theorem processFrame_buffer (opts : CsOptions) (st : CsState) (frame : Str) :
    (processFrame opts st frame).1.buffer = st.buffer := by
  unfold processFrame
  dsimp only []
  split
  · rfl
  · split
    · rfl
    · split <;> first | rfl | (exact notifyThinkingDone_buffer opts st none)

/-- The consume loop never touches the SSE buffer. -/
theorem consumeFrames_buffer (opts : CsOptions) : ∀ (fs : List Str) (st : CsState),
    (consumeFrames opts fs st).1.buffer = st.buffer := by
  intro fs
  induction fs with
  | nil => intro st; rfl
  | cons f rest ih =>
    intro st
    have hb := processFrame_buffer opts st f
    unfold consumeFrames
    cases hp : processFrame opts st f with
    | mk st2 err =>
      rw [hp] at hb
      cases err with
      | some e => exact hb
      | none =>
        dsimp only []
        rw [ih st2]
        exact hb

/-- After draining, the buffer holds exactly the unterminated remainder
of the frame split. -/
theorem consumeBuf_buffer (opts : CsOptions) (st : CsState) :
    (consumeBuf opts st).1.buffer = (framesOfBuffer st.buffer).2 := by
  unfold consumeBuf
  dsimp only []
  rw [consumeFrames_buffer]

/-- One step of the reader loop. -/
theorem readLoop_cons (opts : CsOptions) (ch : Str) (rest : List Str) (st : CsState) :
    readLoop opts (ch :: rest) st =
      match consumeBuf opts { st with buffer := st.buffer ++ ch } with
      | (st2, some e) => (st2, some e)
      | (st2, none) => readLoop opts rest st2 := rfl

/-- The reader loop splits over concatenated chunk lists, stopping at a
thrown error. -/
theorem readLoop_append (opts : CsOptions) (l1 l2 : List Str) :
    ∀ st : CsState, readLoop opts (l1 ++ l2) st =
      match readLoop opts l1 st with
      | (st1, some e) => (st1, some e)
      | (st1, none) => readLoop opts l2 st1 := by
  induction l1 with
  | nil => intro st; rfl
  | cons ch rest ih =>
    intro st
    rw [List.cons_append, readLoop_cons, readLoop_cons]
    cases hc : consumeBuf opts { st with buffer := st.buffer ++ ch } with
    | mk st2 err =>
      cases err with
      | some e => rfl
      | none => exact ih st2

/-- The reader loop preserves delimiter-freeness of the buffer: once a
read completes without error, the leftover buffer holds at most one
partial frame. -/
theorem readLoop_no_delim (opts : CsOptions) : ∀ (l : List Str) (st st' : CsState),
    findSub (toStr "\n\n") st.buffer = none →
    readLoop opts l st = (st', none) →
    findSub (toStr "\n\n") st'.buffer = none := by
  intro l
  induction l with
  | nil =>
    intro st st' h0 hr
    have hst : st = st' := congrArg Prod.fst hr
    exact hst ▸ h0
  | cons ch rest ih =>
    intro st st' h0 hr
    rw [readLoop_cons] at hr
    cases hc : consumeBuf opts { st with buffer := st.buffer ++ ch } with
    | mk st2 err =>
      rw [hc] at hr
      cases err with
      | some e => exact absurd hr (by simp)
      | none =>
        refine ih st2 st' ?_ hr
        have hb := consumeBuf_buffer opts { st with buffer := st.buffer ++ ch }
        rw [hc] at hb
        dsimp only [] at hb
        rw [hb]
        exact framesOfBuffer_rem_none _

/-- Stream finalization never reads the SSE buffer. -/
theorem finalizeStream_buffer (opts : CsOptions) (st : CsState) (b : Str) :
    finalizeStream opts { st with buffer := b } = finalizeStream opts st := by
  obtain ⟨hc, ht⟩ := opts
  cases st with
  | mk bf ag fp tb tf tr =>
    cases fp <;> cases tf <;> cases ht <;> rfl

/-- C9: the end-of-stream flush appends a synthetic delimiter and parses
the remaining buffered partial frame, so a stream whose server closed
without a clean terminator produces exactly the result — response and
callback trace alike — that the same stream with a final blank-line
delimiter would produce; in particular a single unterminated frame
data: ...chunk Hi... still yields the reply Hi rather than being
dropped. -/
theorem c9_end_of_stream_flush :
    (∀ (opts : CsOptions) (chunks : List Str),
      consumeStreamResponse opts chunks =
        consumeStreamResponse opts (chunks ++ [toStr "\n\n"])) ∧
    consumeStreamResponse ⟨false, false⟩
        [toStr "data: \x7b\"type\":\"chunk\",\"content\":\"Hi\"\x7d"] =
      (.ok { reply := toStr "Hi", structuredData := none, raw := .str (toStr "Hi") },
       []) := by
  constructor
  · intro opts chunks
    unfold consumeStreamResponse
    rw [readLoop_append]
    cases hrl : readLoop opts chunks initCsState with
    | mk st err =>
      cases err with
      | some e => rfl
      | none =>
        dsimp only []
        have hnd : findSub (toStr "\n\n") st.buffer = none :=
          readLoop_no_delim opts chunks initCsState st rfl hrl
        have hnd2 : hasSub (toStr "\n\n") st.buffer = false := by
          unfold hasSub
          rw [hnd]
          rfl
        obtain ⟨f, rest, hfb, htr, htf⟩ := framesOfBuffer_append_delim st.buffer hnd2
        have hcb : consumeBuf opts { st with buffer := st.buffer ++ toStr "\n\n" } =
            consumeFrames opts [f] { st with buffer := rest } := by
          unfold consumeBuf
          dsimp only []
          rw [hfb]
        rw [readLoop_cons, hcb]
        by_cases hb : trim st.buffer = []
        · have hfw : trim f = [] := by rw [htf, hb]
          have hskip : consumeFrames opts [f] ({ st with buffer := rest } : CsState) =
              ({ st with buffer := rest }, none) := by
            unfold consumeFrames processFrame
            dsimp only []
            rw [if_pos hfw]
            rfl
          rw [hskip]
          rw [if_neg (not_not_intro hb)]
          dsimp only []
          rw [show readLoop opts [] ({ st with buffer := rest } : CsState) =
            ({ st with buffer := rest }, none) from rfl]
          dsimp only []
          rw [if_neg (not_not_intro (show trim ({ st with buffer := rest } : CsState).buffer = [] from htr))]
          dsimp only []
          exact (finalizeStream_buffer opts st rest).symm
        · rw [if_pos hb]
          cases hcf : consumeFrames opts [f] ({ st with buffer := rest } : CsState) with
          | mk st2 err2 =>
            cases err2 with
            | some e => rfl
            | none =>
              dsimp only []
              rw [show readLoop opts [] st2 = (st2, none) from rfl]
              dsimp only []
              have hb2 : st2.buffer = rest := by
                have hcb2 := consumeFrames_buffer opts [f] ({ st with buffer := rest } : CsState)
                rw [hcf] at hcb2
                dsimp only [] at hcb2
                exact hcb2
              rw [if_neg (not_not_intro (show trim st2.buffer = [] from by rw [hb2]; exact htr))]
  · rfl

/-- Characters written back by Char.ofNat keep their code point when it
is a valid scalar value. -/
theorem toNat_ofNat_valid (n : Nat) (h : n.isValidChar) : (Char.ofNat n).toNat = n := by
  rw [Char.ofNat, dif_pos h]
  rfl

/-- Lower-casing maps no character onto the tag marker character. -/
theorem lowerChar_eq_lt (c : Char) (h : lowerChar c = '<') : c = '<' := by
  unfold lowerChar at h
  by_cases hc : 65 ≤ c.toNat ∧ c.toNat ≤ 90
  · rw [if_pos hc] at h
    have hv : (c.toNat + 32).isValidChar := Or.inl (by omega)
    have := congrArg Char.toNat h
    rw [toNat_ofNat_valid _ hv] at this
    have h60 : ('<').toNat = 60 := rfl
    omega
  · rwa [if_neg hc] at h

/-- A case-insensitive match of a pattern beginning with the tag marker
can only start at a literal tag marker. -/
theorem ciAtStart_head_lt (pat p' : Str) (hp : pat = '<' :: p') (s : Str)
    (h : ciAtStart pat s = true) : ∃ t, s = '<' :: t := by
  have h' : lowerStr (s.take pat.length) = pat := of_decide_eq_true h
  cases s with
  | nil =>
    exfalso
    rw [hp] at h'
    simp [lowerStr] at h'
  | cons c t =>
    refine ⟨t, ?_⟩
    rw [hp] at h'
    rw [show ('<' :: p').length = p'.length + 1 from rfl, List.take_succ_cons] at h'
    have h2 : lowerChar c :: lowerStr (t.take p'.length) = '<' :: p' := h'
    injection h2 with h1 _
    rw [lowerChar_eq_lt c h1]

/-- One unfolding step of the case-insensitive search. -/
theorem findCI_cons (pat : Str) (c : Char) (rest : Str) :
    findCI pat (c :: rest) =
      if ciAtStart pat (c :: rest) = true then some ([], (c :: rest).drop pat.length)
      else (findCI pat rest).map (fun p => (c :: p.1, p.2)) := rfl

/-- A string free of the tag marker contains no tag occurrence. -/
theorem findCI_none_of_no_lt (pat p' : Str) (hp : pat = '<' :: p') :
    ∀ s : Str, '<' ∉ s → findCI pat s = none := by
  intro s
  induction s with
  | nil =>
    intro h
    unfold findCI
    rw [if_neg]
    intro hci
    obtain ⟨t, ht⟩ := ciAtStart_head_lt pat p' hp [] hci
    exact List.noConfusion ht
  | cons c rest ih =>
    intro h
    unfold findCI
    rw [if_neg, ih (fun hm => h (List.mem_cons_of_mem _ hm))]
    · rfl
    · intro hci
      obtain ⟨t, ht⟩ := ciAtStart_head_lt pat p' hp (c :: rest) hci
      injection ht with h1 _
      exact h (h1 ▸ List.mem_cons_self _ _)

/-- Searching for a tag skips over any marker-free prefix. -/
theorem findCI_prepend (pat p' : Str) (hp : pat = '<' :: p') :
    ∀ (pre s : Str), '<' ∉ pre →
    findCI pat (pre ++ s) = (findCI pat s).map (fun q => (pre ++ q.1, q.2)) := by
  intro pre
  induction pre with
  | nil =>
    intro s h
    show findCI pat s = _
    cases findCI pat s <;> rfl
  | cons c pre2 ih =>
    intro s h
    show findCI pat (c :: (pre2 ++ s)) = _
    rw [findCI_cons]
    rw [if_neg, ih s (fun hm => h (List.mem_cons_of_mem _ hm))]
    · cases findCI pat s <;> rfl
    · intro hci
      obtain ⟨t, ht⟩ := ciAtStart_head_lt pat p' hp _ hci
      injection ht with h1 _
      exact h (h1 ▸ List.mem_cons_self _ _)

/-- Lower-casing preserves length. -/
theorem lowerStr_length (s : Str) : (lowerStr s).length = s.length := by
  simp [lowerStr]

/-- A tag spelled in any character case matches case-insensitively at
its own position. -/
theorem ciAtStart_exact (pat tag rest : Str) (hl : lowerStr tag = pat) :
    ciAtStart pat (tag ++ rest) = true := by
  unfold ciAtStart
  rw [show pat.length = tag.length from by rw [← hl, lowerStr_length], List.take_left, hl]
  simp

/-- The search finds a tag spelled in any character case sitting at the
start, returning the text after it. -/
theorem findCI_at_tag (pat tag : Str) (c : Char) (t : Str) (htag : tag = c :: t)
    (hl : lowerStr tag = pat) (rest : Str) :
    findCI pat (tag ++ rest) = some ([], rest) := by
  subst htag
  show findCI pat (c :: (t ++ rest)) = some ([], rest)
  rw [findCI_cons]
  rw [if_pos (show ciAtStart pat (c :: (t ++ rest)) = true from ciAtStart_exact pat _ rest hl)]
  rw [show pat.length = (c :: t : Str).length from by rw [← hl, lowerStr_length]]
  rw [show ((c :: t : Str)).length = t.length + 1 from rfl, List.drop_succ_cons, List.drop_left]

/-- The tag-removal regex leaves marker-free text untouched. -/
theorem removeTagsF_no_lt : ∀ (fuel : Nat) (s : Str), '<' ∉ s → removeTagsF fuel s = s := by
  intro fuel
  induction fuel with
  | zero => intro s h; rfl
  | succ f ih =>
    intro s h
    cases s with
    | nil => rfl
    | cons c rest =>
      unfold removeTagsF
      rw [if_neg, if_neg, ih rest (fun hm => h (List.mem_cons_of_mem _ hm))]
      · intro hci
        obtain ⟨t, ht⟩ := ciAtStart_head_lt closeTagL (toStr "/thinking>") (by decide) _ hci
        injection ht with h1 _
        exact h (h1 ▸ List.mem_cons_self _ _)
      · intro hci
        obtain ⟨t, ht⟩ := ciAtStart_head_lt openTagL (toStr "thinking>") (by decide) _ hci
        injection ht with h1 _
        exact h (h1 ▸ List.mem_cons_self _ _)

/-- Tag removal is the identity on marker-free text. -/
theorem removeTags_no_lt (s : Str) (h : '<' ∉ s) : removeTags s = s :=
  removeTagsF_no_lt _ _ h

/-- A string with a cons anywhere inside is non-empty. -/
theorem append_cons_isEmpty (a : Str) (c : Char) (b : Str) :
    (a ++ c :: b).isEmpty = false := by
  cases a <;> rfl

/-- Text containing an opening tag is non-empty. -/
theorem append_tag_ne_nil (pre tagO rest : Str) (hto : lowerStr tagO = openTagL) :
    pre ++ (tagO ++ rest) ≠ [] := by
  cases hcO : tagO with
  | nil => rw [hcO] at hto; exact absurd hto (by decide)
  | cons cO tO =>
    subst hcO
    simp

/-- An assembled text starting with a well-formed region is non-empty. -/
theorem assembleT_cons_ne_nil (r : TRegion) (rs : List TRegion) (ending : Str)
    (hto : lowerStr r.tagO = openTagL) : assembleT (r :: rs) ending ≠ [] := by
  obtain ⟨pl, tagO, inn, tagC⟩ := r
  dsimp only [] at hto
  show pl ++ (tagO ++ _) ≠ []
  exact append_tag_ne_nil _ _ _ hto

/-- The scanning loop consumes each well-formed region into one visible
part and one thinking part, then continues on the ending with whatever
behaviour the ending induces. -/
theorem splitThinkingF_assemble :
    ∀ (rs : List TRegion) (fuel : Nat) (ending : Str) (V T : List Str) (B : Bool),
    (∀ r ∈ rs, r.Valid) →
    (∀ f2 : Nat, ending.length < f2 → splitThinkingF f2 ending = (V, T, B)) →
    (assembleT rs ending).length < fuel →
    splitThinkingF fuel (assembleT rs ending) =
      (rs.map TRegion.plain ++ V, rs.map TRegion.inner ++ T, B) := by
  intro rs
  induction rs with
  | nil =>
    intro fuel ending V T B _ hend hlen
    simp only [assembleT, List.map_nil, List.nil_append]
    exact hend fuel hlen
  | cons r rs2 ih =>
    intro fuel ending V T B hv hend hlen
    obtain ⟨pl, tagO, inn, tagC⟩ := r
    obtain ⟨hpl, hto, hin, htc⟩ := hv _ (List.mem_cons_self _ _)
    dsimp only [] at hpl hto hin htc
    have hv2 : ∀ r ∈ rs2, r.Valid := fun r hr => hv r (List.mem_cons_of_mem _ hr)
    cases hcO : tagO with
    | nil => rw [hcO] at hto; exact absurd hto (by decide)
    | cons cO tO =>
      cases hcC : tagC with
      | nil => rw [hcC] at htc; exact absurd htc (by decide)
      | cons cC tC =>
        subst hcO
        subst hcC
        have htext : assembleT (⟨pl, cO :: tO, inn, cC :: tC⟩ :: rs2) ending =
            pl ++ ((cO :: tO) ++ (inn ++ ((cC :: tC) ++ assembleT rs2 ending))) := rfl
        have hlenO : (cO :: tO : Str).length = 10 := by
          rw [show (10 : Nat) = openTagL.length from rfl, ← hto, lowerStr_length]
        have hlenC : (cC :: tC : Str).length = 11 := by
          rw [show (11 : Nat) = closeTagL.length from rfl, ← htc, lowerStr_length]
        cases fuel with
        | zero => exact absurd hlen (by omega)
        | succ f =>
          unfold splitThinkingF
          rw [htext]
          rw [show (pl ++ ((cO :: tO) ++ (inn ++ ((cC :: tC) ++ assembleT rs2 ending))) : Str) =
            pl ++ (cO :: (tO ++ (inn ++ ((cC :: tC) ++ assembleT rs2 ending)))) from by simp]
          rw [append_cons_isEmpty]
          dsimp only []
          rw [show (pl ++ (cO :: (tO ++ (inn ++ ((cC :: tC) ++ assembleT rs2 ending)))) : Str) =
            pl ++ ((cO :: tO) ++ (inn ++ ((cC :: tC) ++ assembleT rs2 ending))) from by simp]
          rw [findCI_prepend openTagL (toStr "thinking>") (by decide) pl _ hpl]
          rw [findCI_at_tag openTagL (cO :: tO) cO tO rfl hto]
          dsimp only [Option.map]
          rw [findCI_prepend closeTagL (toStr "/thinking>") (by decide) inn _ hin]
          rw [findCI_at_tag closeTagL (cC :: tC) cC tC rfl htc]
          dsimp only [Option.map]
          have hrec : splitThinkingF f (assembleT rs2 ending) =
              (rs2.map TRegion.plain ++ V, rs2.map TRegion.inner ++ T, B) := by
            apply ih f ending V T B hv2 hend
            have : (assembleT (⟨pl, cO :: tO, inn, cC :: tC⟩ :: rs2) ending).length =
                pl.length + ((cO :: tO : Str).length + (inn.length +
                  ((cC :: tC : Str).length + (assembleT rs2 ending).length))) := by
              rw [htext]
              simp [List.length_append]
              omega
            rw [this, hlenO, hlenC] at hlen
            omega
          rw [hrec]
          simp

/-- The scanning loop on the empty string. -/
theorem splitThinkingF_nil (f2 : Nat) (h : 0 < f2) :
    splitThinkingF f2 [] = ([], [], false) := by
  cases f2 with
  | zero => exact absurd h (by omega)
  | succ f =>
    unfold splitThinkingF
    rfl

/-- The scanning loop on non-empty marker-free text: one visible part. -/
theorem splitThinkingF_plain (tail : Str) (hne : tail ≠ []) (h : '<' ∉ tail) (f2 : Nat)
    (hlen : tail.length < f2) : splitThinkingF f2 tail = ([tail], [], false) := by
  cases f2 with
  | zero => exact absurd hlen (by omega)
  | succ f =>
    unfold splitThinkingF
    cases tail with
    | nil => exact absurd rfl hne
    | cons c t =>
      rw [show ((c :: t : Str).isEmpty) = false from rfl]
      dsimp only []
      rw [findCI_none_of_no_lt openTagL (toStr "thinking>") (by decide) _ h]
      rfl

/-- The scanning loop on an unterminated opening tag: the text before
it is visible, everything after it is one thinking part, and the open
flag is raised. -/
theorem splitThinkingF_open_tail (pre tagO tail : Str) (hp : '<' ∉ pre)
    (hto : lowerStr tagO = openTagL) (hcl : findCI closeTagL tail = none) (f2 : Nat)
    (hlen : (pre ++ (tagO ++ tail)).length < f2) :
    splitThinkingF f2 (pre ++ (tagO ++ tail)) = ([pre], [tail], true) := by
  cases hcO : tagO with
  | nil => rw [hcO] at hto; exact absurd hto (by decide)
  | cons cO tO =>
    subst hcO
    cases f2 with
    | zero => exact absurd hlen (by omega)
    | succ f =>
      unfold splitThinkingF
      rw [show (pre ++ ((cO :: tO) ++ tail) : Str) = pre ++ (cO :: (tO ++ tail)) from by simp]
      rw [append_cons_isEmpty]
      dsimp only []
      rw [show (pre ++ (cO :: (tO ++ tail)) : Str) = pre ++ ((cO :: tO) ++ tail) from by simp]
      rw [findCI_prepend openTagL (toStr "thinking>") (by decide) pre _ hp]
      rw [findCI_at_tag openTagL (cO :: tO) cO tO rfl hto]
      dsimp only [Option.map]
      rw [hcl]
      simp

/-- The Splitter's output in terms of the scanning loop's parts. -/
theorem surface_of_parts (text : Str) (ht : text ≠ []) (P I : List Str) (B : Bool)
    (hsplit : splitThinkingF (text.length + 1) text = (P, I, B)) :
    extractAssistantSurface text =
      { visible := trim (collapseNewlines (removeTags P.flatten)),
        thinking := joinSep (toStr "\n\n")
          ((I.map (fun part => trim (removeTags part))).filter (fun p => !p.isEmpty)),
        stillOpen := B } := by
  cases text with
  | nil => exact absurd rfl ht
  | cons c rest =>
    unfold extractAssistantSurface
    rw [show ((c :: rest : Str).isEmpty) = false from rfl]
    dsimp only []
    rw [hsplit]
    rfl

/-- A concatenation of marker-free strings is marker-free. -/
theorem not_lt_flatten (L : List Str) (h : ∀ l ∈ L, '<' ∉ l) : '<' ∉ L.flatten := by
  intro hm
  obtain ⟨l, hl, hx⟩ := List.mem_flatten.mp hm
  exact h l hl hx

/-- C4 counterexample: for the single well-formed region with inner
text " a " (one space on each side), the Splitter's thinking output is
the trimmed "a", not the region's inner text " a " joined as is — each
thinking part is trimmed before joining, so the claimed exact equality
with the regions' inner text fails. -/
theorem c4_counterexample :
    (extractAssistantSurface (toStr "<thinking> a </thinking>")).thinking ≠
      joinSep (toStr "\n\n") [toStr " a "] ∧
    (extractAssistantSurface (toStr "<thinking> a </thinking>")).thinking = toStr "a" := by
  constructor
  · decide
  · decide

/-- C4 (amended): for every input consisting of well-formed, non-nested
case-insensitive thinking regions followed by trailing plain text, the
Splitter returns open = false, thinking equal to the regions' trimmed
inner texts with blank ones dropped, joined by blank lines, and visible
equal to the plain segments concatenated, newline-collapsed and
trimmed — in particular visible contains no tag markup, since the plain
segments carry no tag marker character. -/
theorem c4_wellformed_regions (rs : List TRegion) (tail : Str)
    (hv : ∀ r ∈ rs, r.Valid) (htail : '<' ∉ tail) :
    extractAssistantSurface (assembleT rs tail) =
      { visible := trim (collapseNewlines ((rs.map TRegion.plain).flatten ++ tail)),
        thinking := joinSep (toStr "\n\n")
          ((rs.map (fun r => trim r.inner)).filter (fun p => !p.isEmpty)),
        stillOpen := false } := by
  have hplains : ∀ l ∈ rs.map TRegion.plain, '<' ∉ l := by
    intro l hl
    obtain ⟨r, hr, hrl⟩ := List.mem_map.mp hl
    exact hrl ▸ (hv r hr).1
  have hthink : ((rs.map TRegion.inner).map (fun part => trim (removeTags part))) =
      rs.map (fun r => trim r.inner) := by
    rw [List.map_map]
    apply List.map_congr_left
    intro r hr
    simp [removeTags_no_lt r.inner (hv r hr).2.2.1]
  by_cases h0 : tail = []
  · subst h0
    cases rs with
    | nil => rfl
    | cons r rs2 =>
      have hsplit := splitThinkingF_assemble (r :: rs2) ((assembleT (r :: rs2) []).length + 1)
        [] [] [] false hv (fun f2 h2 => splitThinkingF_nil f2 (by omega)) (Nat.lt_succ_self _)
      have hne : assembleT (r :: rs2) [] ≠ [] :=
        assembleT_cons_ne_nil r rs2 [] (hv r (List.mem_cons_self _ _)).2.1
      rw [surface_of_parts _ hne _ _ _ hsplit]
      rw [show ((r :: rs2).map TRegion.plain ++ [] : List Str) = (r :: rs2).map TRegion.plain
        from by simp]
      rw [show ((r :: rs2).map TRegion.inner ++ [] : List Str) = (r :: rs2).map TRegion.inner
        from by simp]
      rw [removeTags_no_lt _ (not_lt_flatten _ hplains), hthink]
      rw [show ((r :: rs2).map TRegion.plain).flatten ++ ([] : Str) =
        ((r :: rs2).map TRegion.plain).flatten from by simp]
  · have hsplit := splitThinkingF_assemble rs ((assembleT rs tail).length + 1)
      tail [tail] [] false hv
      (fun f2 h2 => splitThinkingF_plain tail h0 htail f2 h2) (Nat.lt_succ_self _)
    have hne : assembleT rs tail ≠ [] := by
      cases rs with
      | nil => exact h0
      | cons r rs2 =>
        exact assembleT_cons_ne_nil r rs2 tail (hv r (List.mem_cons_self _ _)).2.1
    rw [surface_of_parts _ hne _ _ _ hsplit]
    rw [show (rs.map TRegion.inner ++ [] : List Str) = rs.map TRegion.inner from by simp]
    rw [hthink]
    rw [show ((rs.map TRegion.plain ++ [tail]).flatten : Str) =
      (rs.map TRegion.plain).flatten ++ tail from by simp]
    rw [removeTags_no_lt _ (fun hm => by
      rcases List.mem_append.mp hm with hm | hm
      · exact not_lt_flatten _ hplains hm
      · exact htail hm)]

/-- Witness for C4 at one mixed-case region with trailing text. -/
theorem c4_wellformed_regions_witness :
    (∀ r ∈ [c4regW], r.Valid) ∧ '<' ∉ c4tailW ∧
    extractAssistantSurface (assembleT [c4regW] c4tailW) =
      { visible := trim (collapseNewlines (([c4regW].map TRegion.plain).flatten ++ c4tailW)),
        thinking := joinSep (toStr "\n\n")
          (([c4regW].map (fun r => trim r.inner)).filter (fun p => !p.isEmpty)),
        stillOpen := false } :=
  ⟨by decide, by decide, c4_wellformed_regions [c4regW] c4tailW (by decide) (by decide)⟩

/-- C5: for every input made of well-formed thinking regions followed by
marker-free plain text, a case-insensitive opening tag and a tail with
no closing tag before end of input, the Splitter returns open = true,
the whole tail becomes the final thinking part (tag-stripped and
trimmed like every thinking part), and visible is assembled only from
the text before that opening tag, so no post-tag text reaches it. -/
theorem c5_unterminated_open (rs : List TRegion) (pre tagO tail : Str)
    (hv : ∀ r ∈ rs, r.Valid) (hp : '<' ∉ pre)
    (hto : lowerStr tagO = openTagL) (hcl : findCI closeTagL tail = none) :
    extractAssistantSurface (assembleT rs (pre ++ (tagO ++ tail))) =
      { visible := trim (collapseNewlines ((rs.map TRegion.plain).flatten ++ pre)),
        thinking := joinSep (toStr "\n\n")
          (((rs.map (fun r => trim r.inner)) ++ [trim (removeTags tail)]).filter
            (fun p => !p.isEmpty)),
        stillOpen := true } := by
  have hplains : ∀ l ∈ rs.map TRegion.plain, '<' ∉ l := by
    intro l hl
    obtain ⟨r, hr, hrl⟩ := List.mem_map.mp hl
    exact hrl ▸ (hv r hr).1
  have hsplit := splitThinkingF_assemble rs ((assembleT rs (pre ++ (tagO ++ tail))).length + 1)
    (pre ++ (tagO ++ tail)) [pre] [tail] true hv
    (fun f2 h2 => splitThinkingF_open_tail pre tagO tail hp hto hcl f2 h2) (Nat.lt_succ_self _)
  have hne : assembleT rs (pre ++ (tagO ++ tail)) ≠ [] := by
    cases rs with
    | nil => exact append_tag_ne_nil pre tagO tail hto
    | cons r rs2 =>
      exact assembleT_cons_ne_nil r rs2 _ (hv r (List.mem_cons_self _ _)).2.1
  rw [surface_of_parts _ hne _ _ _ hsplit]
  rw [show ((rs.map TRegion.plain ++ [pre]).flatten : Str) =
    (rs.map TRegion.plain).flatten ++ pre from by simp]
  rw [removeTags_no_lt _ (fun hm => by
    rcases List.mem_append.mp hm with hm | hm
    · exact not_lt_flatten _ hplains hm
    · exact hp hm)]
  rw [show ((rs.map TRegion.inner ++ [tail]).map (fun part => trim (removeTags part))) =
    (rs.map (fun r => trim r.inner)) ++ [trim (removeTags tail)] from by
      rw [List.map_append, List.map_map]
      congr 1
      apply List.map_congr_left
      intro r hr
      simp [removeTags_no_lt r.inner (hv r hr).2.2.1]]

/-- Witness for C5 at one complete region followed by a mixed-case
unterminated opening tag with trailing text. -/
theorem c5_unterminated_open_witness :
    (∀ r ∈ [c5regW], r.Valid) ∧ '<' ∉ c5preW ∧ lowerStr c5tagW = openTagL ∧
    findCI closeTagL c5tailW = none ∧
    extractAssistantSurface (assembleT [c5regW] (c5preW ++ (c5tagW ++ c5tailW))) =
      { visible := trim (collapseNewlines (([c5regW].map TRegion.plain).flatten ++ c5preW)),
        thinking := joinSep (toStr "\n\n")
          ((([c5regW].map (fun r => trim r.inner)) ++ [trim (removeTags c5tailW)]).filter
            (fun p => !p.isEmpty)),
        stillOpen := true } :=
  ⟨by decide, by decide, by decide, by decide,
   c5_unterminated_open [c5regW] c5preW c5tagW c5tailW (by decide) (by decide) (by decide)
     (by decide)⟩
